import Mathlib

set_option maxRecDepth 8000

/-!
Verification development for the godot-mcp repository.

The development shallowly embeds the core of the repository:
the DAP client (request correlator, frame codec, session event handling,
breakpoint registry) from src/dap/dap-client.ts, the GDScript scope
analyzer from src/dap/gdscript-parser.ts, and the telemetry classifier
(parseAndStoreError and the bounded FIFO buffers) from the MCP server
entry point.  JavaScript strings are modelled as `List Char`; the
regular expressions of the sources are embedded as hand-compiled
matchers that follow the leftmost/greedy backtracking semantics of the
JS engine on the single-line inputs the code feeds them.
-/

namespace GodotMCP

/-- Whitespace class used by the sources (the ASCII part of JS \s and of
String.prototype.trim). -/
def isWsChar (c : Char) : Bool :=
  c == ' ' || c == '\t' || c == '\n' || c == '\r' || c == '\x0b' || c == '\x0c'

/-- Word-character class of JS \w, that is [A-Za-z0-9_]. -/
def isWordChar (c : Char) : Bool :=
  c.isAlphanum || c == '_'

/-- Digit class of JS \d. -/
def isDigitChar (c : Char) : Bool :=
  c.isDigit

/-- Model of String.prototype.trimStart. -/
def trimStartChars (s : List Char) : List Char :=
  s.dropWhile isWsChar

/-- Model of String.prototype.trim (both ends). -/
def trimChars (s : List Char) : List Char :=
  ((s.dropWhile isWsChar).reverse.dropWhile isWsChar).reverse

/-- Model of String.prototype.startsWith. -/
def startsWithChars (p s : List Char) : Bool :=
  p.isPrefixOf s

/-- Strips a literal off the front of a string, the building block of the
embedded anchored regular expressions. -/
def stripChars (p s : List Char) : Option (List Char) :=
  if p.isPrefixOf s then some (s.drop p.length) else none

/-- Model of String.prototype.includes (substring search). -/
def containsSub (pat : List Char) : List Char → Bool
  | [] => pat.isEmpty
  | c :: r => pat.isPrefixOf (c :: r) || containsSub pat r

/-- Model of String.prototype.split with a single-character separator. -/
def splitOnChar (sep : Char) : List Char → List (List Char)
  | [] => [[]]
  | c :: r =>
    let rest := splitOnChar sep r
    if c = sep then [] :: rest
    else
      match rest with
      | [] => [[c]]
      | h :: t => (c :: h) :: t

/-- Concatenation of a chunk list, used to state incremental feeding. -/
def joinChunks (chunks : List (List Char)) : List Char :=
  chunks.foldr (fun a b => a ++ b) []

/-- Decimal digit character. -/
def digitChar (d : Nat) : Char :=
  Char.ofNat (48 + d)

/-- Little-endian decimal digits of a positive number, fuelled. -/
def natDigitsAux : Nat → Nat → List Nat
  | 0, _ => []
  | f + 1, n => if n = 0 then [] else n % 10 :: natDigitsAux f (n / 10)

/-- Decimal rendering of a Nat, the model of JS template interpolation of
a number. -/
def natToChars (n : Nat) : List Char :=
  if n = 0 then ['0'] else ((natDigitsAux n n).reverse.map digitChar)

/-- Numeric value of one digit character. -/
def digitVal (c : Char) : Nat :=
  c.toNat - 48

/-- Model of parseInt(s, 10) on a digit string. -/
def digitsVal (s : List Char) : Nat :=
  s.foldl (fun a c => a * 10 + digitVal c) 0

/-- UTF-8 byte width of a scalar, the model of Buffer.byteLength per
character. -/
def utf8Width (c : Char) : Nat :=
  if c.toNat < 128 then 1
  else if c.toNat < 2048 then 2
  else if c.toNat < 65536 then 3
  else 4

/-- Model of Buffer.byteLength(s, "utf8"). -/
def byteLen (s : List Char) : Nat :=
  (s.map utf8Width).sum

/-! JSON values, the data JSON.stringify and JSON.parse exchange.
Numbers are restricted to integers (the only numbers the client
serializes); arrays and objects are dedicated inductives so that all
recursion over them stays structural. -/

mutual

inductive Json where
  | null : Json
  | bool (b : Bool) : Json
  | num (n : Int) : Json
  | str (s : List Char) : Json
  | arr (items : JsonArr) : Json
  | obj (members : JsonObj) : Json
  deriving DecidableEq

inductive JsonArr where
  | nil : JsonArr
  | cons (v : Json) (rest : JsonArr) : JsonArr
  deriving DecidableEq

inductive JsonObj where
  | nil : JsonObj
  | cons (key : List Char) (value : Json) (rest : JsonObj) : JsonObj
  deriving DecidableEq

end

/-- Lowercase hexadecimal digit, as produced by JSON.stringify unicode
escapes. -/
def hexDigitChar (d : Nat) : Char :=
  if d < 10 then Char.ofNat (48 + d) else Char.ofNat (87 + d)

/-- Model of the QuoteJSONString escaping of one character performed by
JSON.stringify. -/
def escapeChar (c : Char) : List Char :=
  if c = '"' then ['\\', '"']
  else if c = '\\' then ['\\', '\\']
  else if c = '\x08' then ['\\', 'b']
  else if c = '\t' then ['\\', 't']
  else if c = '\n' then ['\\', 'n']
  else if c = '\x0c' then ['\\', 'f']
  else if c = '\r' then ['\\', 'r']
  else if c.toNat < 32 then
    ['\\', 'u', '0', '0', hexDigitChar (c.toNat / 16), hexDigitChar (c.toNat % 16)]
  else [c]

/-- Escaped body of a JSON string literal. -/
def escapeString (s : List Char) : List Char :=
  (s.map escapeChar).flatten

/-- Decimal rendering of an integer. -/
def intToChars (n : Int) : List Char :=
  if n < 0 then '-' :: natToChars (-n).toNat else natToChars n.toNat

mutual

/-- Model of JSON.stringify on a value (no whitespace, insertion-order
keys), exactly the serialization the client writes on the wire. -/
def stringifyJson : Json → List Char
  | .null => "null".data
  | .bool true => "true".data
  | .bool false => "false".data
  | .num n => intToChars n
  | .str s => '"' :: (escapeString s ++ ['"'])
  | .arr items => '[' :: stringifyItems items
  | .obj ms => '{' :: stringifyMembers ms

/-- Serialization of array elements up to and including the closing
bracket. -/
def stringifyItems : JsonArr → List Char
  | .nil => [']']
  | .cons v rest => stringifyJson v ++ stringifyItemsTail rest

/-- Serialization of the remaining array elements, each preceded by a
comma, up to and including the closing bracket. -/
def stringifyItemsTail : JsonArr → List Char
  | .nil => [']']
  | .cons v rest => ',' :: (stringifyJson v ++ stringifyItemsTail rest)

/-- Serialization of object members up to and including the closing
brace. -/
def stringifyMembers : JsonObj → List Char
  | .nil => ['}']
  | .cons k v rest =>
    '"' :: (escapeString k ++ '"' :: ':' :: (stringifyJson v ++ stringifyMembersTail rest))

/-- Serialization of the remaining object members, each preceded by a
comma, up to and including the closing brace. -/
def stringifyMembersTail : JsonObj → List Char
  | .nil => ['}']
  | .cons k v rest =>
    ',' :: '"' :: (escapeString k ++ '"' :: ':' :: (stringifyJson v ++ stringifyMembersTail rest))

end

/-- Value of one hexadecimal digit character. -/
def hexVal (c : Char) : Option Nat :=
  if '0' ≤ c ∧ c ≤ '9' then some (c.toNat - 48)
  else if 'a' ≤ c ∧ c ≤ 'f' then some (c.toNat - 87)
  else if 'A' ≤ c ∧ c ≤ 'F' then some (c.toNat - 55)
  else none

/-- Parses the body of a JSON string literal after the opening quote,
returning the decoded characters and the input after the closing
quote. -/
def parseStrBody : List Char → Option (List Char × List Char)
  | [] => none
  | c :: r =>
    if c = '"' then some ([], r)
    else if c = '\\' then
      match r with
      | [] => none
      | e :: r2 =>
        if e = '"' then (parseStrBody r2).map (fun p => ('"' :: p.1, p.2))
        else if e = '\\' then (parseStrBody r2).map (fun p => ('\\' :: p.1, p.2))
        else if e = 'b' then (parseStrBody r2).map (fun p => ('\x08' :: p.1, p.2))
        else if e = 't' then (parseStrBody r2).map (fun p => ('\t' :: p.1, p.2))
        else if e = 'n' then (parseStrBody r2).map (fun p => ('\n' :: p.1, p.2))
        else if e = 'f' then (parseStrBody r2).map (fun p => ('\x0c' :: p.1, p.2))
        else if e = 'r' then (parseStrBody r2).map (fun p => ('\r' :: p.1, p.2))
        else if e = 'u' then
          match r2 with
          | h1 :: h2 :: h3 :: h4 :: r3 =>
            match hexVal h1, hexVal h2, hexVal h3, hexVal h4 with
            | some a, some b, some cc, some d =>
              let n := ((a * 16 + b) * 16 + cc) * 16 + d
              if n < 55296 then
                (parseStrBody r3).map (fun p => (Char.ofNat n :: p.1, p.2))
              else none
            | _, _, _, _ => none
          | _ => none
        else none
    else (parseStrBody r).map (fun p => (c :: p.1, p.2))

mutual

/-- Fuelled model of JSON.parse on the no-whitespace canonical form that
JSON.stringify emits, returning the value and the unconsumed input. -/
def parseVal : Nat → List Char → Option (Json × List Char)
  | 0, _ => none
  | _ + 1, [] => none
  | n + 1, c :: r =>
    if c = 'n' then (stripChars "ull".data r).map (fun r2 => (Json.null, r2))
    else if c = 't' then (stripChars "rue".data r).map (fun r2 => (Json.bool true, r2))
    else if c = 'f' then (stripChars "alse".data r).map (fun r2 => (Json.bool false, r2))
    else if c = '"' then (parseStrBody r).map (fun p => (Json.str p.1, p.2))
    else if c = '[' then (parseItems n r).map (fun p => (Json.arr p.1, p.2))
    else if c = '{' then (parseMembers n r).map (fun p => (Json.obj p.1, p.2))
    else if c = '-' then
      let ds := r.takeWhile isDigitChar
      if ds = [] then none
      else some (Json.num (-(digitsVal ds : Int)), r.drop ds.length)
    else if isDigitChar c then
      let ds := (c :: r).takeWhile isDigitChar
      some (Json.num (digitsVal ds : Int), (c :: r).drop ds.length)
    else none

/-- Parses array elements up to and including the closing bracket. -/
def parseItems : Nat → List Char → Option (JsonArr × List Char)
  | 0, _ => none
  | _ + 1, [] => none
  | n + 1, c :: r =>
    if c = ']' then some (JsonArr.nil, r)
    else do
      let (v, r1) ← parseVal n (c :: r)
      let (vs, r2) ← parseItemsTail n r1
      some (JsonArr.cons v vs, r2)

/-- Parses the comma-separated remainder of an array up to and including
the closing bracket. -/
def parseItemsTail : Nat → List Char → Option (JsonArr × List Char)
  | 0, _ => none
  | _ + 1, [] => none
  | n + 1, c :: r =>
    if c = ']' then some (JsonArr.nil, r)
    else if c = ',' then do
      let (v, r1) ← parseVal n r
      let (vs, r2) ← parseItemsTail n r1
      some (JsonArr.cons v vs, r2)
    else none

/-- Parses object members up to and including the closing brace. -/
def parseMembers : Nat → List Char → Option (JsonObj × List Char)
  | 0, _ => none
  | _ + 1, [] => none
  | n + 1, c :: r =>
    if c = '}' then some (JsonObj.nil, r)
    else if c = '"' then do
      let (k, r1) ← parseStrBody r
      match r1 with
      | ':' :: r2 => do
        let (v, r3) ← parseVal n r2
        let (ms, r4) ← parseMembersTail n r3
        some (JsonObj.cons k v ms, r4)
      | _ => none
    else none

/-- Parses the comma-separated remainder of an object up to and
including the closing brace. -/
def parseMembersTail : Nat → List Char → Option (JsonObj × List Char)
  | 0, _ => none
  | _ + 1, [] => none
  | n + 1, c :: r =>
    if c = '}' then some (JsonObj.nil, r)
    else if c = ',' then
      match r with
      | '"' :: r1 => do
        let (k, r2) ← parseStrBody r1
        match r2 with
        | ':' :: r3 => do
          let (v, r4) ← parseVal n r3
          let (ms, r5) ← parseMembersTail n r4
          some (JsonObj.cons k v ms, r5)
        | _ => none
      | _ => none
    else none

end

/-- Model of a full JSON.parse call: the whole input must be one JSON
value. -/
def jsonParseFull (s : List Char) : Option Json :=
  match parseVal s.length s with
  | some (v, []) => some v
  | _ => none

/-! Fuel bounds under which the parser is total on stringify output. -/

mutual

/-- Fuel needed by parseVal on the serialization of a value. -/
def jsize : Json → Nat
  | .null => 1
  | .bool _ => 1
  | .num _ => 1
  | .str _ => 1
  | .arr items => 1 + isize items
  | .obj ms => 1 + msize ms

/-- Fuel needed by parseItems on serialized array elements. -/
def isize : JsonArr → Nat
  | .nil => 1
  | .cons v rest => 1 + max (jsize v) (tsize rest)

/-- Fuel needed by parseItemsTail on a serialized array tail. -/
def tsize : JsonArr → Nat
  | .nil => 1
  | .cons v rest => 1 + max (jsize v) (tsize rest)

/-- Fuel needed by parseMembers on serialized object members. -/
def msize : JsonObj → Nat
  | .nil => 1
  | .cons _ v rest => 1 + max (jsize v) (osize rest)

/-- Fuel needed by parseMembersTail on a serialized object tail. -/
def osize : JsonObj → Nat
  | .nil => 1
  | .cons _ v rest => 1 + max (jsize v) (osize rest)

end

/-! Embedding of the DAP client (src/dap/dap-client.ts). -/

/-- Model of a DAPRequest (seq, type: request, command, arguments). -/
structure DAPRequestM where
  seq : Nat
  command : List Char
  arguments : Json
  deriving DecidableEq

/-- JSON object built for a request in sendRequest, with the insertion
key order seq, type, command, arguments of the object literal. -/
def requestToJson (r : DAPRequestM) : Json :=
  Json.obj
    (JsonObj.cons "seq".data (Json.num (r.seq : Int))
      (JsonObj.cons "type".data (Json.str "request".data)
        (JsonObj.cons "command".data (Json.str r.command)
          (JsonObj.cons "arguments".data r.arguments JsonObj.nil))))

/-- Model of JSON.stringify(request) in sendRequest. -/
def stringifyRequest (r : DAPRequestM) : List Char :=
  stringifyJson (requestToJson r)

/-- Model of the frame written in sendRequest: the header
Content-Length: n (n the UTF-8 byte length of the payload), a blank
line, then the JSON payload. -/
def encodeRequestFrame (r : DAPRequestM) : List Char :=
  "Content-Length: ".data ++ natToChars (byteLen (stringifyRequest r)) ++
    '\r' :: '\n' :: '\r' :: '\n' :: stringifyRequest r

/-- Index of the first occurrence of the blank-line marker, the model of
buffer.indexOf of the double CRLF in handleData. -/
def findMarker : List Char → Option Nat
  | [] => none
  | c :: r =>
    if startsWithChars "\r\n\r\n".data (c :: r) then some 0
    else (findMarker r).map (fun i => i + 1)

/-- Lowercases one ASCII letter, for the case-insensitive header
match. -/
def lowerAscii (c : Char) : Char :=
  if 'A' ≤ c ∧ c ≤ 'Z' then Char.ofNat (c.toNat + 32) else c

/-- Attempt of the Content-Length regular expression at one position:
the literal (case-insensitively), optional whitespace, then at least one
digit. -/
def tryCLAt (s : List Char) : Option Nat :=
  if (s.take 15).map lowerAscii = "content-length:".data then
    let r1 := (s.drop 15).dropWhile isWsChar
    let ds := r1.takeWhile isDigitChar
    if ds = [] then none else some (digitsVal ds)
  else none

/-- Model of header.match of the Content-Length pattern: the attempt is
retried at every position of the header, as the unanchored JS regular
expression does. -/
def scanContentLength : List Char → Option Nat
  | [] => none
  | c :: r =>
    match tryCLAt (c :: r) with
    | some v => some v
    | none => scanContentLength r

/-- Fuelled model of the extraction loop of handleData: repeatedly find
the blank line, read Content-Length, and slice the payload; returns the
remaining buffer and the extracted payloads in order.  A malformed
header is discarded up to the blank line; an incomplete payload leaves
the whole buffer for the next call. -/
def processBuffer : Nat → List Char → List Char × List (List Char)
  | 0, buf => (buf, [])
  | f + 1, buf =>
    match findMarker buf with
    | none => (buf, [])
    | some hEnd =>
      match scanContentLength (buf.take hEnd) with
      | none => processBuffer f (buf.drop (hEnd + 4))
      | some n =>
        let mStart := hEnd + 4
        let mEnd := mStart + n
        if buf.length < mEnd then (buf, [])
        else
          let msg := (buf.drop mStart).take n
          let rec2 := processBuffer f (buf.drop mEnd)
          (rec2.1, msg :: rec2.2)

/-- Model of one handleData call: append the chunk to the buffer and run
the extraction loop. -/
def feedChunk (buf chunk : List Char) : List Char × List (List Char) :=
  processBuffer (buf.length + chunk.length) (buf ++ chunk)

/-- Feeds a sequence of chunks through handleData, accumulating the
decoded payloads. -/
def feedChunks (chunks : List (List Char)) : List Char × List (List Char) :=
  chunks.foldl
    (fun st c =>
      let r := feedChunk st.1 c
      (r.1, st.2 ++ r.2))
    ([], [])

/-- A concrete all-ASCII initialize request, used to exercise the codec. -/
def reqInit : DAPRequestM :=
  ⟨1, "initialize".data,
    Json.obj (JsonObj.cons "adapterID".data (Json.str "godot".data) JsonObj.nil)⟩

/-- A concrete request whose serialization contains a non-ASCII character. -/
def reqAccent : DAPRequestM :=
  ⟨1, ['é'], Json.obj JsonObj.nil⟩

/-! Association lists with JS Map semantics: set replaces in place
keeping iteration order, delete removes the binding, lookup finds the
binding. -/

/-- Model of Map.prototype.get. -/
def lookupKey {κ β : Type} [DecidableEq κ] : List (κ × β) → κ → Option β
  | [], _ => none
  | (k1, v) :: r, k => if k = k1 then some v else lookupKey r k

/-- Model of Map.prototype.set (insertion order preserved on update). -/
def setKey {κ β : Type} [DecidableEq κ] : List (κ × β) → κ → β → List (κ × β)
  | [], k, v => [(k, v)]
  | (k1, v1) :: r, k, v => if k = k1 then (k, v) :: r else (k1, v1) :: setKey r k v

/-- Model of Map.prototype.delete. -/
def eraseKey {κ β : Type} [DecidableEq κ] : List (κ × β) → κ → List (κ × β)
  | [], _ => []
  | (k1, v1) :: r, k => if k = k1 then eraseKey r k else (k1, v1) :: eraseKey r k

/-- Model of Map.prototype.has. -/
def hasKey {κ β : Type} [DecidableEq κ] (m : List (κ × β)) (k : κ) : Bool :=
  (lookupKey m k).isSome

/-- Pending-request record stored by sendRequest (the resolver functions
are modelled by the returned settle actions). -/
structure PendingEntry where
  command : List Char
  deriving DecidableEq

/-- Model of a DAPResponse. -/
structure DAPResponseM where
  seq : Nat
  request_seq : Nat
  success : Bool
  command : List Char
  message : Option (List Char)
  body : Option Json
  deriving DecidableEq

/-- Model of a server-reported Breakpoint (the fields getBreakpoints
reads). -/
structure BreakpointM where
  id : Option Nat
  verified : Bool
  line : Option Nat
  deriving DecidableEq

/-- Mutable state of a DAPClient instance. -/
structure ClientState where
  socketOpen : Bool
  connected : Bool
  paused : Bool
  currentThreadId : Nat
  sequenceNumber : Nat
  pendingRequests : List (Nat × PendingEntry)
  buffer : List Char
  capabilities : Option Json
  breakpoints : List (List Char × List BreakpointM)
  deriving DecidableEq

/-- Field initializers of the DAPClient class. -/
def initClientState : ClientState :=
  { socketOpen := false, connected := false, paused := false,
    currentThreadId := 1, sequenceNumber := 1, pendingRequests := [],
    buffer := [], capabilities := none, breakpoints := [] }

/-- Outcome delivered to the awaiting caller of sendRequest. -/
inductive SettleAction where
  | resolved (r : DAPResponseM)
  | rejected (msg : List Char)
  deriving DecidableEq

/-- Error text used when a response has success false: the server
message if present and non-empty (JS truthiness), the generic text
otherwise. -/
def respFailMsg (r : DAPResponseM) : List Char :=
  match r.message with
  | some m => if m = [] then "DAP request failed: ".data ++ r.command else m
  | none => "DAP request failed: ".data ++ r.command

/-- Model of the response branch of handleMessage: look up the pending
entry by request_seq, delete it, and resolve or reject it; a response
with no pending entry is ignored. -/
def handleResponseStep (s : ClientState) (r : DAPResponseM) :
    ClientState × Option (Nat × SettleAction) :=
  match lookupKey s.pendingRequests r.request_seq with
  | none => (s, none)
  | some _ =>
    ({ s with pendingRequests := eraseKey s.pendingRequests r.request_seq },
      some (r.request_seq,
        if r.success then SettleAction.resolved r
        else SettleAction.rejected (respFailMsg r)))

/-- Model of the timeout callback installed by sendRequest: if the entry
is still pending, delete it and reject with the timeout error. -/
def timeoutStep (s : ClientState) (seq : Nat) (command : List Char) :
    ClientState × Option (Nat × SettleAction) :=
  if hasKey s.pendingRequests seq then
    ({ s with pendingRequests := eraseKey s.pendingRequests seq },
      some (seq, SettleAction.rejected ("DAP request timeout: ".data ++ command)))
  else (s, none)

/-- Model of the synchronous part of sendRequest: reject immediately
when not connected, otherwise allocate the next sequence number and
record the pending entry. -/
def sendRequestStep (s : ClientState) (command : List Char) :
    ClientState × Option Nat :=
  if s.socketOpen = false ∨ s.connected = false then (s, none)
  else
    ({ s with
        sequenceNumber := s.sequenceNumber + 1,
        pendingRequests := setKey s.pendingRequests s.sequenceNumber ⟨command⟩ },
      some s.sequenceNumber)

/-- Body fields of a DAP event that handleEvent reads. -/
structure EventBodyM where
  threadId : Option Nat
  deriving DecidableEq

/-- Model of handleEvent: stopped sets paused and takes the thread id
when truthy; continued and terminated clear paused; output, breakpoint
and unknown events change no state. -/
def handleEventStep (s : ClientState) (name : List Char) (body : Option EventBodyM) :
    ClientState :=
  if name = "stopped".data then
    let s1 := { s with paused := true }
    match body with
    | some b =>
      match b.threadId with
      | some t => if t ≠ 0 then { s1 with currentThreadId := t } else s1
      | none => s1
    | none => s1
  else if name = "continued".data then { s with paused := false }
  else if name = "terminated".data then { s with paused := false }
  else s

/-- Model of the socket close handler registered in connect. -/
def closeHandlerStep (s : ClientState) : ClientState :=
  { s with connected := false, paused := false, socketOpen := false }

/-- Body of a setBreakpoints response. -/
structure SetBpBody where
  breakpoints : Option (List BreakpointM)
  deriving DecidableEq

/-- Response shape consumed by setBreakpoints. -/
structure SetBpResponse where
  success : Bool
  body : Option SetBpBody
  deriving DecidableEq

/-- Model of setBreakpoints given the outcome of its awaited request: a
rejected request propagates the error and touches nothing; a successful
response with a body replaces the registry entry for the source path
with the server-returned breakpoints. -/
def setBreakpointsStep (s : ClientState) (sourcePath : List Char)
    (outcome : Except (List Char) SetBpResponse) :
    ClientState × Except (List Char) (List BreakpointM) :=
  match outcome with
  | .error e => (s, .error e)
  | .ok resp =>
    match resp.success, resp.body with
    | true, some b =>
      let bps := b.breakpoints.getD []
      ({ s with breakpoints := setKey s.breakpoints sourcePath bps }, .ok bps)
    | _, _ => (s, .ok [])

/-- Entry shape returned by getBreakpoints. -/
structure BpView where
  script : List Char
  line : Nat
  enabled : Bool
  deriving DecidableEq

/-- Model of getBreakpoints: a pure flattened read of the registry, the
path prefixed with the resource-root marker when absent, a missing line
reported as 0, enabled taken from the verified flag. -/
def getBreakpointsView (s : ClientState) : List BpView :=
  (s.breakpoints.map (fun kv =>
    kv.2.map (fun bp =>
      { script := if startsWithChars "res://".data kv.1 then kv.1
                  else "res://".data ++ kv.1,
        line := bp.line.getD 0,
        enabled := bp.verified }))).flatten

/-! Embedding of the telemetry classifier (parseAndStoreError, the
ERROR_PATTERNS regular expressions and the bounded FIFO buffers) from
the MCP server entry point. -/

/-- Capacity of the runtime-error buffer. -/
def MAX_RUNTIME_ERRORS : Nat := 100

/-- Capacity of the unified debug-message buffer. -/
def MAX_DEBUG_MESSAGES : Nat := 500

/-- Insertion discipline of the runtime-error buffer: shift the oldest
entry first when already at capacity, then push. -/
def shiftThenPush {α : Type} (buf : List α) (maxSize : Nat) (x : α) : List α :=
  if maxSize ≤ buf.length then buf.drop 1 ++ [x] else buf ++ [x]

/-- Insertion discipline of the debug-message buffer in the output
handlers: push, then shift the oldest entry when over capacity. -/
def pushThenShift {α : Type} (buf : List α) (maxSize : Nat) (x : α) : List α :=
  let b := buf ++ [x]
  if maxSize < b.length then b.drop 1 else b

/-- Error kind recorded for a runtime error (source field `type`). -/
inductive ErrKind where
  | error
  | warning
  deriving DecidableEq

/-- Model of a RuntimeError record (the source field `function` is
`funcName` here). -/
structure RuntimeErrorM where
  timestamp : Nat
  kind : ErrKind
  message : List Char
  script : List Char
  line : Nat
  funcName : Option (List Char)
  deriving DecidableEq

/-- Model of the RuntimeErrorBuffer structure. -/
structure RuntimeErrorBuffer where
  errors : List RuntimeErrorM
  maxSize : Nat
  deriving DecidableEq

/-- Buffer insertion performed by parseAndStoreError. -/
def pushRuntimeError (buffer : RuntimeErrorBuffer) (e : RuntimeErrorM) :
    RuntimeErrorBuffer :=
  { buffer with errors := shiftThenPush buffer.errors buffer.maxSize e }

/-- Category of a unified DebugMessage. -/
inductive MsgCategory where
  | print
  | warning
  | error
  deriving DecidableEq

/-- Model of a DebugMessage record. -/
structure DebugMessageM where
  timestamp : Nat
  category : MsgCategory
  message : List Char
  source : List Char
  deriving DecidableEq

/-- Model of the suffix of the errorStart pattern after the keyword and
colon, that is optional whitespace followed by a non-empty greedy
capture reaching the end of the line. -/
def restMessage (rest : List Char) : Option (List Char) :=
  if rest = [] then none
  else
    let m := rest.dropWhile isWsChar
    if m = [] then some (rest.drop (rest.length - 1)) else some m

/-- Attempt of one errorStart alternative: the keyword literal, a colon,
then the message suffix. -/
def tryKwColon (kw s : List Char) : Option (List Char) :=
  match stripChars kw s with
  | some r =>
    match r with
    | ':' :: rest => restMessage rest
    | _ => none
  | none => none

/-- Model of ERROR_PATTERNS.errorStart, returning the keyword capture
and the message capture; the alternatives are tried in the order of the
pattern. -/
def errorStartM (s : List Char) : Option (List Char × List Char) :=
  match tryKwColon "ERROR".data s with
  | some m => some ("ERROR".data, m)
  | none =>
    match tryKwColon "SCRIPT ERROR".data s with
    | some m => some ("SCRIPT ERROR".data, m)
    | none =>
      match tryKwColon "WARNING".data s with
      | some m => some ("WARNING".data, m)
      | none => none

/-- Model of the common tail of both at-line patterns: a non-empty
colon-free capture, a colon, at least one digit, a closing parenthesis,
then the end of the line. -/
def atTailM (s : List Char) : Option (List Char × Nat) :=
  let p := s.takeWhile (fun c => c != ':')
  if p = [] then none
  else
    match s.drop p.length with
    | ':' :: s2 =>
      let ds := s2.takeWhile isDigitChar
      if ds = [] then none
      else
        match s2.drop ds.length with
        | [')'] => some (p, digitsVal ds)
        | _ => none
    | _ => none

/-- Model of ERROR_PATTERNS.atLine: leading whitespace, the at marker,
whitespace, a word-character function name, whitespace, an opening
parenthesis, an optional (backtracked) resource-root marker, then the
common tail. -/
def atLineM (s : List Char) : Option (List Char × List Char × Nat) :=
  let s1 := s.dropWhile isWsChar
  match stripChars "at:".data s1 with
  | none => none
  | some s2 =>
    let s3 := s2.dropWhile isWsChar
    let w := s3.takeWhile isWordChar
    if w = [] then none
    else
      match (s3.drop w.length).dropWhile isWsChar with
      | '(' :: s5 =>
        (match stripChars "res://".data s5 with
         | some s6 =>
           match atTailM s6 with
           | some pn => some (w, pn.1, pn.2)
           | none => (atTailM s5).map (fun pn => (w, pn.1, pn.2))
         | none => (atTailM s5).map (fun pn => (w, pn.1, pn.2)))
      | _ => none

/-- Model of ERROR_PATTERNS.atLineAlt: leading whitespace, the at
marker, then a greedy parenthesis-free capture (the whitespace cursor
backtracks so that the capture stays non-empty), an opening parenthesis
and the common tail. -/
def atLineAltM (s : List Char) : Option (List Char × List Char × Nat) :=
  let s1 := s.dropWhile isWsChar
  match stripChars "at:".data s1 with
  | none => none
  | some s2 =>
    let body0 := s2.takeWhile (fun c => c != '(')
    if body0 = [] then none
    else
      let afterWs := body0.dropWhile isWsChar
      let capture := if afterWs = [] then body0.drop (body0.length - 1) else afterWs
      match s2.drop body0.length with
      | '(' :: s5 => (atTailM s5).map (fun pn => (capture, pn.1, pn.2))
      | _ => none

/-- First of atLine and atLineAlt that matches, as in
parseAndStoreError. -/
def atAnyM (s : List Char) : Option (List Char × List Char × Nat) :=
  match atLineM s with
  | some r => some r
  | none => atLineAltM s

/-- Error kind from the keyword capture, via the includes check of the
source. -/
def kindOfKw (kw : List Char) : ErrKind :=
  if containsSub "WARNING".data kw then ErrKind.warning else ErrKind.error

/-- Final pending-line computation of parseAndStoreError: the trimmed
line becomes the new pending line exactly when it matches errorStart. -/
def finishLine (trimmedLine : List Char) (buffer : RuntimeErrorBuffer) :
    Option (List Char) × RuntimeErrorBuffer :=
  (if (errorStartM trimmedLine).isSome then some trimmedLine else none, buffer)

/-- Model of parseAndStoreError.  The timestamp is passed in for the
Date.now() reading.  Returns the new pending line and the new buffer. -/
def parseAndStoreError (now : Nat) (line : List Char)
    (buffer : RuntimeErrorBuffer) (pendingLine : Option (List Char)) :
    Option (List Char) × RuntimeErrorBuffer :=
  let trimmedLine := trimChars line
  if trimmedLine = [] then (pendingLine, buffer)
  else
    match pendingLine with
    | some pl =>
      match atAnyM trimmedLine with
      | some fsl =>
        (match errorStartM pl with
         | some km =>
           let script := if startsWithChars "res://".data fsl.2.1 then fsl.2.1
                         else "res://".data ++ fsl.2.1
           (none, pushRuntimeError buffer
             { timestamp := now, kind := kindOfKw km.1, message := km.2,
               script := script, line := fsl.2.2,
               funcName := some (trimChars fsl.1) })
         | none => finishLine trimmedLine buffer)
      | none =>
        (match errorStartM pl with
         | some km =>
           finishLine trimmedLine (pushRuntimeError buffer
             { timestamp := now, kind := kindOfKw km.1, message := km.2,
               script := [], line := 0, funcName := none })
         | none => finishLine trimmedLine buffer)
    | none => finishLine trimmedLine buffer

/-! Embedding of the GDScript scope analyzer
(src/dap/gdscript-parser.ts). -/

/-- Scope tag of a discovered variable. -/
inductive VarScope where
  | classScope
  | localScope
  | paramScope
  deriving DecidableEq

/-- Model of VariableInfo (the optional source field `type` is `vtype`
here). -/
structure VariableInfo where
  name : List Char
  vtype : Option (List Char)
  line : Nat
  scope : VarScope
  deriving DecidableEq

/-- Model of FunctionInfo. -/
structure FunctionInfo where
  name : List Char
  startLine : Nat
  endLine : Nat
  parameters : List (List Char)
  localVariables : List VariableInfo
  deriving DecidableEq

/-- Model of ScriptInfo. -/
structure ScriptInfo where
  classVariables : List VariableInfo
  functions : List FunctionInfo
  deriving DecidableEq

/-- Shared suffix of the declaration patterns: at least one whitespace
character followed by a non-empty word run. -/
def wordAfterWs1 (r : List Char) : Option (List Char) :=
  let ws := r.takeWhile isWsChar
  if ws = [] then none
  else
    let w := (r.drop ws.length).takeWhile isWordChar
    if w = [] then none else some w

/-- Attempt of a keyword alternative of the declaration patterns: the
keyword literal then whitespace and the declared name. -/
def tryDeclKw (kw line : List Char) : Option (List Char) :=
  match stripChars kw line with
  | some r => wordAfterWs1 r
  | none => none

/-- Attempt of an annotation alternative of the class-variable pattern:
the annotation literal, whitespace, the var keyword, then whitespace and
the declared name. -/
def tryAnnKw (ann line : List Char) : Option (List Char) :=
  match stripChars ann line with
  | some r =>
    let ws := r.takeWhile isWsChar
    if ws = [] then none
    else
      match stripChars "var".data (r.drop ws.length) with
      | some r2 => wordAfterWs1 r2
      | none => none
  | none => none

/-- Model of classVarPattern, anchored at the line start, alternatives
in pattern order; returns the declared name. -/
def classVarM (line : List Char) : Option (List Char) :=
  match tryDeclKw "var".data line with
  | some n => some n
  | none =>
    match tryDeclKw "const".data line with
    | some n => some n
    | none =>
      match tryAnnKw "@onready".data line with
      | some n => some n
      | none => tryAnnKw "@export".data line

/-- Attempt of the dynamically built type pattern at one position: the
variable name literal, optional whitespace, a colon, optional
whitespace, then a non-empty word run. -/
def typeAtM (varName s : List Char) : Option (List Char) :=
  match stripChars varName s with
  | some r1 =>
    match r1.dropWhile isWsChar with
    | ':' :: r3 =>
      let w := (r3.dropWhile isWsChar).takeWhile isWordChar
      if w = [] then none else some w
    | _ => none
  | none => none

/-- Model of the unanchored type-annotation match: the attempt is
retried at every position of the line. -/
def typeScanM (varName : List Char) : List Char → Option (List Char)
  | [] => none
  | c :: r =>
    match typeAtM varName (c :: r) with
    | some t => some t
    | none => typeScanM varName r

/-- Model of funcPattern, anchored at the line start; returns the
function name and the raw parenthesized parameter text. -/
def funcM (line : List Char) : Option (List Char × List Char) :=
  match stripChars "func".data line with
  | none => none
  | some r =>
    let ws := r.takeWhile isWsChar
    if ws = [] then none
    else
      let r2 := r.drop ws.length
      let nm := r2.takeWhile isWordChar
      if nm = [] then none
      else
        match (r2.drop nm.length).dropWhile isWsChar with
        | '(' :: r4 =>
          let ps := r4.takeWhile (fun c => c != ')')
          match r4.drop ps.length with
          | ')' :: _ => some (nm, ps)
          | _ => none
        | _ => none

/-- Model of localVarPattern: at least one leading whitespace character
then a var or const declaration. -/
def localVarM (line : List Char) : Option (List Char) :=
  let ws := line.takeWhile isWsChar
  if ws = [] then none
  else
    let r := line.drop ws.length
    match tryDeclKw "var".data r with
    | some n => some n
    | none => tryDeclKw "const".data r

/-- Model of forPattern: leading whitespace, the for keyword,
whitespace, the iteration variable, whitespace, then the in keyword. -/
def forLoopM (line : List Char) : Option (List Char) :=
  let ws := line.takeWhile isWsChar
  if ws = [] then none
  else
    match stripChars "for".data (line.drop ws.length) with
    | some r =>
      let ws2 := r.takeWhile isWsChar
      if ws2 = [] then none
      else
        let r2 := r.drop ws2.length
        let w := r2.takeWhile isWordChar
        if w = [] then none
        else
          let r3 := r2.drop w.length
          let ws3 := r3.takeWhile isWsChar
          if ws3 = [] then none
          else
            match stripChars "in".data (r3.drop ws3.length) with
            | some _ => some w
            | none => none
    | none => none

/-- Model of assignPattern: leading whitespace, a word run, optional
whitespace, then an equals sign optionally preceded by a colon. -/
def assignM (line : List Char) : Option (List Char) :=
  let ws := line.takeWhile isWsChar
  if ws = [] then none
  else
    let r := line.drop ws.length
    let w := r.takeWhile isWordChar
    if w = [] then none
    else
      match (r.drop w.length).dropWhile isWsChar with
      | ':' :: '=' :: _ => some w
      | '=' :: _ => some w
      | _ => none

/-- Model of parseParameters: split the raw text on commas and keep the
leading word run of each trimmed part. -/
def parseParametersFn (paramsStr : List Char) : List (List Char) :=
  if trimChars paramsStr = [] then []
  else
    (splitOnChar ',' paramsStr).filterMap (fun part =>
      let t := trimChars part
      let w := t.takeWhile isWordChar
      if w = [] then none else some w)

/-- Statement-side constructor joining parameter declarations with
commas, used to state the splitting behaviour of parseParameters. -/
def joinWithComma : List (List Char) → List Char
  | [] => []
  | [p] => p
  | p :: q :: rest => p ++ ',' :: joinWithComma (q :: rest)

/-- Loop state of parseGDScriptContent. -/
structure GDParseState where
  classVariables : List VariableInfo
  functions : List FunctionInfo
  currentFunction : Option FunctionInfo
  functionIndent : Nat

/-- Closes the current function at 0-based line index i (the previous
line is its last) and appends it. -/
def closeCurrent (st : GDParseState) (i : Nat) : GDParseState :=
  match st.currentFunction with
  | some cf =>
    { st with functions := st.functions ++ [{ cf with endLine := i }],
              currentFunction := none }
  | none => st

/-- Model of the declaration recognition of one loop iteration of
parseGDScriptContent: the class-variable check at zero indentation, then
inside the current function the local-variable, for-loop and implicit
assignment checks. -/
def processDeclLine (st1 : GDParseState) (lineNum currentIndent : Nat)
    (line : List Char) : GDParseState :=
  match (if currentIndent = 0 then classVarM line else none) with
  | some vname =>
    { st1 with classVariables := st1.classVariables ++
        [{ name := vname, vtype := typeScanM vname line, line := lineNum,
           scope := VarScope.classScope }] }
  | none =>
    match st1.currentFunction with
    | some cf =>
      match localVarM line with
      | some vname =>
        { st1 with currentFunction := some { cf with localVariables :=
            cf.localVariables ++
              [{ name := vname, vtype := typeScanM vname line, line := lineNum,
                 scope := VarScope.localScope }] } }
      | none =>
        match forLoopM line with
        | some vname =>
          { st1 with currentFunction := some { cf with localVariables :=
              cf.localVariables ++
                [{ name := vname, vtype := none, line := lineNum,
                   scope := VarScope.localScope }] } }
        | none =>
          match assignM line with
          | some vname =>
            let alreadyDeclared :=
              cf.localVariables.any (fun v => v.name == vname) ||
                st1.classVariables.any (fun v => v.name == vname)
            if alreadyDeclared = false ∧ vname.contains '.' = false ∧
                vname ≠ "self".data then
              { st1 with currentFunction := some { cf with localVariables :=
                  cf.localVariables ++
                    [{ name := vname, vtype := none, line := lineNum,
                       scope := VarScope.localScope }] } }
            else st1
          | none => st1
    | none => st1

/-- Model of one iteration of the parseGDScriptContent loop at 0-based
index i. -/
def processLine (st : GDParseState) (i : Nat) (line : List Char) : GDParseState :=
  let lineNum := i + 1
  let trimmedLine := line.dropWhile isWsChar
  let currentIndent := line.length - trimmedLine.length
  let st1 :=
    match st.currentFunction with
    | some _ =>
      if 0 < trimmedLine.length ∧ startsWithChars "#".data trimmedLine = false ∧
          currentIndent ≤ st.functionIndent ∧ line.all isWsChar = false then
        closeCurrent st i
      else st
    | none => st
  if trimmedLine = [] ∨ startsWithChars "#".data trimmedLine = true then st1
  else
    match funcM line with
    | some np =>
      let st2 := closeCurrent st1 i
      let params := parseParametersFn np.2
      { st2 with
        currentFunction := some
          { name := np.1, startLine := lineNum, endLine := lineNum,
            parameters := params,
            localVariables := params.map (fun p =>
              { name := p, vtype := none, line := lineNum, scope := VarScope.paramScope }) },
        functionIndent := currentIndent }
    | none => processDeclLine st1 lineNum currentIndent line

/-- Runs the loop from 0-based index i over the remaining lines. -/
def processLinesFrom (i : Nat) : List (List Char) → GDParseState → GDParseState
  | [], st => st
  | l :: rest, st => processLinesFrom (i + 1) rest (processLine st i l)

/-- Model of parseGDScriptContent: split on newlines, run the loop, and
flush a still-open function with the line count as its end line. -/
def parseGDScriptContent (content : List Char) : ScriptInfo :=
  let lines := splitOnChar '\n' content
  let st := processLinesFrom 0 lines
    { classVariables := [], functions := [], currentFunction := none,
      functionIndent := 0 }
  match st.currentFunction with
  | some cf =>
    { classVariables := st.classVariables,
      functions := st.functions ++ [{ cf with endLine := lines.length }] }
  | none =>
    { classVariables := st.classVariables, functions := st.functions }

/-- First function of the table whose line interval contains the given
line, as the lookup loop of getVariablesAtLine finds it. -/
def firstContaining : List FunctionInfo → Nat → Option FunctionInfo
  | [], _ => none
  | f :: r, line =>
    if f.startLine ≤ line ∧ line ≤ f.endLine then some f
    else firstContaining r line

/-- Model of getVariablesAtLine: all class variables plus, for the first
containing function, its parameters and locals declared at or before the
line. -/
def getVariablesAtLine (si : ScriptInfo) (line : Nat) : List VariableInfo :=
  si.classVariables ++
    (match firstContaining si.functions line with
     | some f => f.localVariables.filter (fun v => v.line ≤ line)
     | none => [])

/-! Helper lemmas about the association-list map operations. -/

theorem lookupKey_eraseKey_self {κ β : Type} [DecidableEq κ]
    (m : List (κ × β)) (k : κ) : lookupKey (eraseKey m k) k = none := by
  induction m with
  | nil => rfl
  | cons kv r ih =>
    obtain ⟨k1, v1⟩ := kv
    by_cases h : k = k1
    · subst h
      simp [eraseKey, ih]
    · simp [eraseKey, lookupKey, h, ih]

theorem lookupKey_eraseKey_ne {κ β : Type} [DecidableEq κ]
    (m : List (κ × β)) (k j : κ) (h : j ≠ k) :
    lookupKey (eraseKey m k) j = lookupKey m j := by
  induction m with
  | nil => rfl
  | cons kv r ih =>
    obtain ⟨k1, v1⟩ := kv
    by_cases h1 : k = k1
    · subst h1
      simp [eraseKey, lookupKey, h, ih]
    · by_cases h2 : j = k1
      · simp [eraseKey, lookupKey, h1, h2]
      · simp [eraseKey, lookupKey, h1, h2, ih]

theorem setKey_setKey {κ β : Type} [DecidableEq κ]
    (m : List (κ × β)) (k : κ) (v1 v2 : β) :
    setKey (setKey m k v1) k v2 = setKey m k v2 := by
  induction m with
  | nil => simp [setKey]
  | cons kv r ih =>
    obtain ⟨k1, w⟩ := kv
    by_cases h : k = k1
    · simp [setKey, h]
    · simp [setKey, h, ih]

theorem lookupKey_setKey_self {κ β : Type} [DecidableEq κ]
    (m : List (κ × β)) (k : κ) (v : β) :
    lookupKey (setKey m k v) k = some v := by
  induction m with
  | nil => simp [setKey, lookupKey]
  | cons kv r ih =>
    obtain ⟨k1, w⟩ := kv
    by_cases h : k = k1
    · simp [setKey, lookupKey, h]
    · simp [setKey, lookupKey, h, ih]

theorem lookupKey_setKey_ne {κ β : Type} [DecidableEq κ]
    (m : List (κ × β)) (k j : κ) (v : β) (h : j ≠ k) :
    lookupKey (setKey m k v) j = lookupKey m j := by
  induction m with
  | nil => simp [setKey, lookupKey, h]
  | cons kv r ih =>
    obtain ⟨k1, w⟩ := kv
    by_cases h1 : k = k1
    · subst h1
      simp [setKey, lookupKey, h]
    · by_cases h2 : j = k1
      · simp [setKey, lookupKey, h1, h2]
      · simp [setKey, lookupKey, h1, h2, ih]

/-! Claim theorems. -/

/-- C1: a response with request_seq k settles exactly the pending
request k (resolved on success, rejected with the server-supplied
message otherwise) and leaves every other pending request untouched,
whatever the arrival order; a response with no pending entry is a
no-op; a timeout removes the entry and rejects, after which a response
for that sequence number has no effect; sendRequest allocates the next
sequence number for its pending entry. -/
theorem c1_response_correlation :
    (∀ (s : ClientState) (r : DAPResponseM) (pe : PendingEntry),
      lookupKey s.pendingRequests r.request_seq = some pe →
        (handleResponseStep s r).1.pendingRequests =
            eraseKey s.pendingRequests r.request_seq ∧
          (handleResponseStep s r).2 =
            some (r.request_seq,
              if r.success then SettleAction.resolved r
              else SettleAction.rejected (respFailMsg r)) ∧
          lookupKey (handleResponseStep s r).1.pendingRequests r.request_seq = none ∧
          ∀ j, j ≠ r.request_seq →
            lookupKey (handleResponseStep s r).1.pendingRequests j =
              lookupKey s.pendingRequests j) ∧
    (∀ (s : ClientState) (r : DAPResponseM),
      lookupKey s.pendingRequests r.request_seq = none →
        handleResponseStep s r = (s, none)) ∧
    (∀ (s : ClientState) (k : Nat) (cmd : List Char),
      hasKey s.pendingRequests k = true →
        (timeoutStep s k cmd).2 =
            some (k, SettleAction.rejected ("DAP request timeout: ".data ++ cmd)) ∧
          lookupKey (timeoutStep s k cmd).1.pendingRequests k = none ∧
          ∀ (r : DAPResponseM), r.request_seq = k →
            handleResponseStep (timeoutStep s k cmd).1 r =
              ((timeoutStep s k cmd).1, none)) ∧
    (∀ (s : ClientState) (cmd : List Char),
      s.socketOpen = true → s.connected = true →
        sendRequestStep s cmd =
          ({ s with
              sequenceNumber := s.sequenceNumber + 1,
              pendingRequests := setKey s.pendingRequests s.sequenceNumber ⟨cmd⟩ },
            some s.sequenceNumber)) := by
  refine ⟨?_, ?_, ?_, ?_⟩
  · intro s r pe h
    refine ⟨?_, ?_, ?_, ?_⟩
    · simp [handleResponseStep, h]
    · simp [handleResponseStep, h]
    · simp [handleResponseStep, h, lookupKey_eraseKey_self]
    · intro j hj
      simp [handleResponseStep, h, lookupKey_eraseKey_ne _ _ _ hj]
  · intro s r h
    simp [handleResponseStep, h]
  · intro s k cmd h
    refine ⟨?_, ?_, ?_⟩
    · simp [timeoutStep, h]
    · simp [timeoutStep, h, lookupKey_eraseKey_self]
    · intro r hr
      have hnone : lookupKey (timeoutStep s k cmd).1.pendingRequests r.request_seq = none := by
        simp [timeoutStep, h, hr, lookupKey_eraseKey_self]
      simp [handleResponseStep, hnone]
  · intro s cmd h1 h2
    simp [sendRequestStep, h1, h2]

/-- C1 witness: a concrete client with pending requests 3 and 4; the
response for 3 settles exactly request 3 and leaves 4 pending, and a
response arriving after the timeout of 4 is ignored. -/
theorem c1_response_correlation_witness :
    (let s : ClientState :=
      ⟨true, true, false, 1, 5,
        [(3, ⟨"evaluate".data⟩), (4, ⟨"threads".data⟩)], [], none, []⟩
     let r : DAPResponseM :=
      ⟨10, 3, true, "evaluate".data, none, none⟩
     (handleResponseStep s r).2 = some (3, SettleAction.resolved r) ∧
       lookupKey (handleResponseStep s r).1.pendingRequests 4 =
         some ⟨"threads".data⟩ ∧
       handleResponseStep (timeoutStep s 4 "threads".data).1
           ⟨11, 4, true, "threads".data, none, none⟩ =
         ((timeoutStep s 4 "threads".data).1, none)) := by
  intro s r
  have h3 : lookupKey s.pendingRequests r.request_seq = some ⟨"evaluate".data⟩ := by decide
  have h4 : hasKey s.pendingRequests 4 = true := by decide
  obtain ⟨ha, hb, hc, hd⟩ := c1_response_correlation.1 s r _ h3
  refine ⟨?_, ?_, ?_⟩
  · rw [hb]
    rfl
  · rw [hd 4 (by decide)]
    decide
  · exact (c1_response_correlation.2.2.1 s 4 "threads".data h4).2.2
      ⟨11, 4, true, "threads".data, none, none⟩ rfl

/-- C6 counterexample: on a connected paused client with thread id 5 and
cached capabilities, a terminated event leaves connected true and
retains both the thread id and the capabilities, and a transport close
also retains them — the claim that the session transitions to
Disconnected with the session-scoped data cleared is false at this
input. -/
theorem c6_terminated_counterexample :
    (let s : ClientState :=
      ⟨true, true, true, 5, 7, [], [], some (Json.bool true),
        [("a.gd".data, [⟨some 1, true, some 3⟩])]⟩
     (handleEventStep s "terminated".data none).connected = true ∧
       (handleEventStep s "terminated".data none).currentThreadId = 5 ∧
       (handleEventStep s "terminated".data none).capabilities = some (Json.bool true) ∧
       (closeHandlerStep s).currentThreadId = 5 ∧
       (closeHandlerStep s).capabilities = some (Json.bool true)) := by
  decide

/-- C6 (amended): a terminated event only clears the paused flag,
leaving the connected flag, the current thread id, the cached
capabilities and the breakpoint registry unchanged; a transport close
clears connected and paused and drops the socket, likewise leaving the
thread id, the capabilities and the breakpoint registry unchanged. -/
theorem c6_terminated_and_close_effects :
    (∀ (s : ClientState) (body : Option EventBodyM),
      handleEventStep s "terminated".data body = { s with paused := false }) ∧
    (∀ s : ClientState,
      closeHandlerStep s =
        { s with connected := false, paused := false, socketOpen := false }) := by
  exact ⟨fun s body => rfl, fun s => rfl⟩

/-- C8: re-registering breakpoints for a source path replaces the stored
entry wholesale with the server-returned breakpoints of the second call,
getBreakpoints is a pure read of the stored registry, and on the
concrete scenario of the spec the final view reports exactly one
breakpoint at line 5 for a.gd. -/
theorem c8_breakpoint_replacement :
    (∀ (s : ClientState) (p : List Char) (b1 b2 : List BreakpointM)
        (r1 r2 : SetBpResponse),
      r1.success = true → r1.body = some ⟨some b1⟩ →
      r2.success = true → r2.body = some ⟨some b2⟩ →
        (setBreakpointsStep (setBreakpointsStep s p (.ok r1)).1 p (.ok r2)).1.breakpoints =
          setKey s.breakpoints p b2) ∧
    (∀ s s' : ClientState, s.breakpoints = s'.breakpoints →
      getBreakpointsView s = getBreakpointsView s') ∧
    getBreakpointsView
        (setBreakpointsStep
          (setBreakpointsStep initClientState "a.gd".data
            (.ok ⟨true, some ⟨some [⟨some 1, true, some 1⟩, ⟨some 2, true, some 2⟩]⟩⟩)).1
          "a.gd".data
          (.ok ⟨true, some ⟨some [⟨some 3, true, some 5⟩]⟩⟩)).1 =
      [⟨"res://a.gd".data, 5, true⟩] := by
  refine ⟨?_, ?_, ?_⟩
  · intro s p b1 b2 r1 r2 h1 h1b h2 h2b
    obtain ⟨s1, body1⟩ := r1
    obtain ⟨s2, body2⟩ := r2
    simp only at h1 h1b h2 h2b
    subst h1 h1b h2 h2b
    simp [setBreakpointsStep, setKey_setKey]
  · intro s s' h
    simp [getBreakpointsView, h]
  · decide

/-- C8 witness: the general replacement fact applied to the concrete
a.gd scenario of the spec gives the stored entry of the second call. -/
theorem c8_breakpoint_replacement_witness :
    (setBreakpointsStep
        (setBreakpointsStep initClientState "a.gd".data
          (.ok ⟨true, some ⟨some [⟨some 1, true, some 1⟩, ⟨some 2, true, some 2⟩]⟩⟩)).1
        "a.gd".data
        (.ok ⟨true, some ⟨some [⟨some 3, true, some 5⟩]⟩⟩)).1.breakpoints =
      setKey initClientState.breakpoints "a.gd".data [⟨some 3, true, some 5⟩] := by
  exact c8_breakpoint_replacement.1 initClientState "a.gd".data
    [⟨some 1, true, some 1⟩, ⟨some 2, true, some 2⟩] [⟨some 3, true, some 5⟩]
    ⟨true, some ⟨some [⟨some 1, true, some 1⟩, ⟨some 2, true, some 2⟩]⟩⟩
    ⟨true, some ⟨some [⟨some 3, true, some 5⟩]⟩⟩ rfl rfl rfl rfl

/-- C9: a setBreakpoints call whose awaited request rejects (the server
answered success false or the timeout fired) propagates the error and
leaves the breakpoint registry exactly as it was; a failed response
settles its pending request as rejected, and a fired timeout settles it
as rejected with the timeout error. -/
theorem c9_failed_set_breakpoints_preserves_registry :
    (∀ (s : ClientState) (p m : List Char),
      setBreakpointsStep s p (.error m) = (s, .error m)) ∧
    (∀ (s : ClientState) (r : DAPResponseM) (pe : PendingEntry),
      r.success = false →
      lookupKey s.pendingRequests r.request_seq = some pe →
        (handleResponseStep s r).2 =
          some (r.request_seq, SettleAction.rejected (respFailMsg r))) ∧
    (∀ (s : ClientState) (k : Nat) (cmd : List Char),
      hasKey s.pendingRequests k = true →
        (timeoutStep s k cmd).2 =
          some (k, SettleAction.rejected ("DAP request timeout: ".data ++ cmd))) := by
  refine ⟨fun s p m => rfl, ?_, ?_⟩
  · intro s r pe hf h
    simp [handleResponseStep, h, hf]
  · intro s k cmd h
    simp [timeoutStep, h]

/-- C9 witness: a concrete rejected call leaves the concrete registry
entry for a.gd untouched. -/
theorem c9_failed_set_breakpoints_preserves_registry_witness :
    (let s : ClientState :=
      ⟨true, true, false, 1, 5, [(3, ⟨"setBreakpoints".data⟩)], [], none,
        [("a.gd".data, [⟨some 1, true, some 1⟩])]⟩
     setBreakpointsStep s "a.gd".data (.error "boom".data) = (s, .error "boom".data) ∧
       (handleResponseStep s ⟨9, 3, false, "setBreakpoints".data, some "nope".data, none⟩).2 =
         some (3, SettleAction.rejected "nope".data) ∧
       (timeoutStep s 3 "setBreakpoints".data).2 =
         some (3, SettleAction.rejected ("DAP request timeout: setBreakpoints".data))) := by
  intro s
  refine ⟨c9_failed_set_breakpoints_preserves_registry.1 s "a.gd".data "boom".data, ?_, ?_⟩
  · have := c9_failed_set_breakpoints_preserves_registry.2.1 s
      ⟨9, 3, false, "setBreakpoints".data, some "nope".data, none⟩
      ⟨"setBreakpoints".data⟩ rfl (by decide)
    rw [this]
    decide
  · have := c9_failed_set_breakpoints_preserves_registry.2.2 s 3
      "setBreakpoints".data (by decide)
    rw [this]
    decide

/-- C10: every entry of the getBreakpoints view carries a script path
that starts with the resource-root marker (the stored path unchanged
when it already does, prefixed otherwise), reports line 0 when the
server breakpoint carried no line, and takes enabled from the verified
flag. -/
theorem c10_get_breakpoints_shape :
    ∀ (s : ClientState) (e : BpView),
      e ∈ getBreakpointsView s →
        startsWithChars "res://".data e.script = true ∧
        ∃ path bps bp, (path, bps) ∈ s.breakpoints ∧ bp ∈ bps ∧
          e.script = (if startsWithChars "res://".data path then path
                      else "res://".data ++ path) ∧
          e.line = bp.line.getD 0 ∧
          (bp.line = none → e.line = 0) ∧
          e.enabled = bp.verified := by
  intro s e he
  simp only [getBreakpointsView, List.mem_flatten, List.mem_map] at he
  obtain ⟨l, ⟨kv, hkv, hl⟩, hel⟩ := he
  subst hl
  simp only [List.mem_map] at hel
  obtain ⟨bp, hbp, hbe⟩ := hel
  subst hbe
  constructor
  · by_cases h : startsWithChars "res://".data kv.1 = true
    · simp [h]
    · simp only [h]
      simp only [Bool.not_eq_true] at h
      simp [h, startsWithChars, List.isPrefixOf_iff_prefix]
  · refine ⟨kv.1, kv.2, bp, hkv, hbp, ?_, rfl, ?_, rfl⟩
    · by_cases h : startsWithChars "res://".data kv.1 = true
      · simp [h]
      · simp only [Bool.not_eq_true] at h
        simp [h]
    · intro hn
      simp [hn]

/-- C10 witness: the shape fact applied to a concrete registry with a
line-less verified breakpoint under a bare path. -/
theorem c10_get_breakpoints_shape_witness :
    (let s : ClientState :=
      ⟨true, true, false, 1, 1, [], [], none, [("a.gd".data, [⟨none, true, none⟩])]⟩
     let e : BpView := ⟨"res://a.gd".data, 0, true⟩
     startsWithChars "res://".data e.script = true ∧
       ∃ path bps bp, (path, bps) ∈ s.breakpoints ∧ bp ∈ bps ∧
         e.script = (if startsWithChars "res://".data path then path
                     else "res://".data ++ path) ∧
         e.line = bp.line.getD 0 ∧
         (bp.line = none → e.line = 0) ∧
         e.enabled = bp.verified) := by
  intro s e
  exact c10_get_breakpoints_shape s e (by decide)

/-! Helper lemmas for the FIFO buffer characterization. -/

theorem foldl_shiftThenPush {α : Type} (C : Nat) (hC : 1 ≤ C) :
    ∀ (xs buf : List α), buf.length ≤ C →
      List.foldl (fun b x => shiftThenPush b C x) buf xs =
        (buf ++ xs).drop (buf.length + xs.length - C) := by
  intro xs
  induction xs with
  | nil =>
    intro buf h
    simp [Nat.sub_eq_zero_of_le h]
  | cons x xs ih =>
    intro buf h
    rw [List.foldl_cons]
    by_cases hc : C ≤ buf.length
    · have hlen : buf.length = C := le_antisymm h hc
      have h1 : 1 ≤ buf.length := by omega
      have hstep : shiftThenPush buf C x = buf.drop 1 ++ [x] := by
        simp [shiftThenPush, hc]
      rw [hstep, ih _ (by simp; omega)]
      have hre : buf.drop 1 ++ ([x] ++ xs) = (buf ++ x :: xs).drop 1 := by
        rw [List.drop_append_of_le_length h1]
        simp
      rw [List.append_assoc, hre, List.drop_drop]
      congr 1
      simp
      omega
    · have hstep : shiftThenPush buf C x = buf ++ [x] := by
        simp [shiftThenPush, hc]
      rw [hstep, ih _ (by simp; omega)]
      rw [List.append_assoc]
      congr 1
      simp
      omega

theorem foldl_pushThenShift {α : Type} (C : Nat) (hC : 1 ≤ C) :
    ∀ (xs buf : List α), buf.length ≤ C →
      List.foldl (fun b x => pushThenShift b C x) buf xs =
        (buf ++ xs).drop (buf.length + xs.length - C) := by
  intro xs
  induction xs with
  | nil =>
    intro buf h
    simp [Nat.sub_eq_zero_of_le h]
  | cons x xs ih =>
    intro buf h
    rw [List.foldl_cons]
    by_cases hc : C < buf.length + 1
    · have hlen : buf.length = C := by omega
      have h1 : 1 ≤ buf.length := by omega
      have hstep : pushThenShift buf C x = (buf ++ [x]).drop 1 := by
        simp only [pushThenShift]
        rw [if_pos (by simp; omega)]
      have hre : (buf ++ [x]).drop 1 = buf.drop 1 ++ [x] := by
        rw [List.drop_append_of_le_length h1]
      rw [hstep, hre, ih _ (by simp; omega)]
      have hre2 : buf.drop 1 ++ ([x] ++ xs) = (buf ++ x :: xs).drop 1 := by
        rw [List.drop_append_of_le_length h1]
        simp
      rw [List.append_assoc, hre2, List.drop_drop]
      congr 1
      simp
      omega
    · have hstep : pushThenShift buf C x = buf ++ [x] := by
        simp only [pushThenShift]
        rw [if_neg (by simp; omega)]
      rw [hstep, ih _ (by simp; omega)]
      rw [List.append_assoc]
      congr 1
      simp
      omega

theorem shiftThenPush_length_le {α : Type} (C : Nat) (hC : 1 ≤ C)
    (buf : List α) (x : α) (h : buf.length ≤ C) :
    (shiftThenPush buf C x).length ≤ C := by
  by_cases hc : C ≤ buf.length
  · have : buf.length = C := le_antisymm h hc
    simp [shiftThenPush, hc]
    omega
  · simp [shiftThenPush, hc]
    omega

theorem pushThenShift_length_le {α : Type} (C : Nat) (hC : 1 ≤ C)
    (buf : List α) (x : α) (h : buf.length ≤ C) :
    (pushThenShift buf C x).length ≤ C := by
  by_cases hc : C < buf.length + 1
  · simp only [pushThenShift]
    rw [if_pos (by simp; omega)]
    simp
    omega
  · simp only [pushThenShift]
    rw [if_neg (by simp; omega)]
    simp
    omega

/-- Any parseAndStoreError call leaves the buffer unchanged or performs
exactly one pushRuntimeError insertion. -/
theorem parseAndStoreError_buffer_cases (now : Nat) (line : List Char)
    (buffer : RuntimeErrorBuffer) (pending : Option (List Char)) :
    (parseAndStoreError now line buffer pending).2 = buffer ∨
      ∃ e, (parseAndStoreError now line buffer pending).2 = pushRuntimeError buffer e := by
  simp only [parseAndStoreError]
  split
  · exact Or.inl rfl
  · split
    · split
      · split
        · exact Or.inr ⟨_, rfl⟩
        · exact Or.inl rfl
      · split
        · exact Or.inr ⟨_, rfl⟩
        · exact Or.inl rfl
    · exact Or.inl rfl

/-- C2: folding any overlong insertion sequence into either buffer from
empty leaves exactly the capacity-many most recently inserted records in
insertion order (the runtime-error buffer at capacity 100, the
debug-message buffer at capacity 500); one insertion never grows a
buffer beyond its capacity, and a parseAndStoreError call keeps the
runtime-error buffer within its capacity. -/
theorem c2_fifo_buffers :
    (∀ xs : List RuntimeErrorM, MAX_RUNTIME_ERRORS < xs.length →
      List.foldl (fun b x => shiftThenPush b MAX_RUNTIME_ERRORS x) [] xs =
          xs.drop (xs.length - MAX_RUNTIME_ERRORS) ∧
        (List.foldl (fun b x => shiftThenPush b MAX_RUNTIME_ERRORS x) [] xs).length =
          MAX_RUNTIME_ERRORS) ∧
    (∀ ds : List DebugMessageM, MAX_DEBUG_MESSAGES < ds.length →
      List.foldl (fun b x => pushThenShift b MAX_DEBUG_MESSAGES x) [] ds =
          ds.drop (ds.length - MAX_DEBUG_MESSAGES) ∧
        (List.foldl (fun b x => pushThenShift b MAX_DEBUG_MESSAGES x) [] ds).length =
          MAX_DEBUG_MESSAGES) ∧
    (∀ (buf : List RuntimeErrorM) (x : RuntimeErrorM),
      buf.length ≤ MAX_RUNTIME_ERRORS →
        (shiftThenPush buf MAX_RUNTIME_ERRORS x).length ≤ MAX_RUNTIME_ERRORS) ∧
    (∀ (buf : List DebugMessageM) (x : DebugMessageM),
      buf.length ≤ MAX_DEBUG_MESSAGES →
        (pushThenShift buf MAX_DEBUG_MESSAGES x).length ≤ MAX_DEBUG_MESSAGES) ∧
    (∀ (now : Nat) (line : List Char) (buffer : RuntimeErrorBuffer)
        (pending : Option (List Char)),
      buffer.errors.length ≤ buffer.maxSize → 1 ≤ buffer.maxSize →
        (parseAndStoreError now line buffer pending).2.errors.length ≤ buffer.maxSize) := by
  refine ⟨?_, ?_, ?_, ?_, ?_⟩
  · intro xs h
    have heq := foldl_shiftThenPush MAX_RUNTIME_ERRORS (by decide) xs [] (by simp)
    simp only [List.nil_append, List.length_nil, Nat.zero_add] at heq
    refine ⟨heq, ?_⟩
    rw [heq, List.length_drop]
    omega
  · intro ds h
    have heq := foldl_pushThenShift MAX_DEBUG_MESSAGES (by decide) ds [] (by simp)
    simp only [List.nil_append, List.length_nil, Nat.zero_add] at heq
    refine ⟨heq, ?_⟩
    rw [heq, List.length_drop]
    omega
  · exact fun buf x h => shiftThenPush_length_le _ (by decide) buf x h
  · exact fun buf x h => pushThenShift_length_le _ (by decide) buf x h
  · intro now line buffer pending h h1
    rcases parseAndStoreError_buffer_cases now line buffer pending with hcase | ⟨e, hcase⟩
    · rw [hcase]
      exact h
    · rw [hcase]
      exact shiftThenPush_length_le _ h1 _ e h

/-- C2 witness: 101 runtime errors leave the 100 most recent in order,
and 501 debug messages leave the 500 most recent in order. -/
theorem c2_fifo_buffers_witness :
    (let xs : List RuntimeErrorM :=
      (List.range 101).map (fun k => ⟨k, ErrKind.error, [], [], 0, none⟩)
     let ds : List DebugMessageM :=
      (List.range 501).map (fun k => ⟨k, MsgCategory.print, [], []⟩)
     MAX_RUNTIME_ERRORS < xs.length ∧
       List.foldl (fun b x => shiftThenPush b MAX_RUNTIME_ERRORS x) [] xs =
         xs.drop (xs.length - MAX_RUNTIME_ERRORS) ∧
       MAX_DEBUG_MESSAGES < ds.length ∧
       List.foldl (fun b x => pushThenShift b MAX_DEBUG_MESSAGES x) [] ds =
         ds.drop (ds.length - MAX_DEBUG_MESSAGES)) := by
  intro xs ds
  have hx : MAX_RUNTIME_ERRORS < xs.length := by decide
  have hd : MAX_DEBUG_MESSAGES < ds.length := by simp [ds, MAX_DEBUG_MESSAGES]
  exact ⟨hx, (c2_fifo_buffers.1 xs hx).1, hd, (c2_fifo_buffers.2.1 ds hd).1⟩

/-- C3 (code bug): feeding the classifier the error line and then the
continuation line of the claim records exactly one RuntimeError, but
with empty script and line 0 — neither at-line pattern matches the
continuation (the word class of atLine cannot span the double colon of
the function name, and the colon-free capture of atLineAlt cannot span
the resource-root marker), so the location is lost, contrary to the
comment above ERROR_PATTERNS.atLineAlt and to the claim. -/
theorem c3_continuation_line_not_extracted :
    (let st1 := parseAndStoreError 11 "ERROR: Parse Error: unexpected token".data
      ⟨[], MAX_RUNTIME_ERRORS⟩ none
     let st2 := parseAndStoreError 12 "   at: GDScript::reload (res://a.gd:4)".data
      st1.2 st1.1
     st1.1 = some "ERROR: Parse Error: unexpected token".data ∧
       st1.2.errors = [] ∧
       st2.1 = none ∧
       st2.2.errors =
         [⟨12, ErrKind.error, "Parse Error: unexpected token".data, [], 0, none⟩] ∧
       atLineM "at: GDScript::reload (res://a.gd:4)".data = none ∧
       atLineAltM "at: GDScript::reload (res://a.gd:4)".data = none) := by
  decide

/-- When exactly one function of the table contains the line, the
lookup loop finds it. -/
theorem firstContaining_of_unique (fs : List FunctionInfo) (line : Nat)
    (f : FunctionInfo) (hmem : f ∈ fs) (hs : f.startLine ≤ line)
    (he : line ≤ f.endLine)
    (huniq : ∀ g ∈ fs, g.startLine ≤ line → line ≤ g.endLine → g = f) :
    firstContaining fs line = some f := by
  induction fs with
  | nil => cases hmem
  | cons g r ih =>
    by_cases hg : g.startLine ≤ line ∧ line ≤ g.endLine
    · have hEq : g = f := huniq g (List.mem_cons_self g r) hg.1 hg.2
      subst hEq
      simp [firstContaining, hs, he]
    · have hgf : g ≠ f := by
        intro hEq
        exact hg (hEq ▸ ⟨hs, he⟩)
      have hmem' : f ∈ r := by
        rcases List.mem_cons.1 hmem with h | h
        · exact absurd h.symm hgf
        · exact h
      simp only [firstContaining, if_neg hg]
      exact ih hmem' (fun g2 hg2 => huniq g2 (List.mem_cons_of_mem _ hg2))

/-- C5: on any symbol table in which the given function is the unique
one whose line interval contains the query line, getVariablesAtLine
returns exactly the class variables followed by that function's
parameters and locals declared at or before the line; every other
function contributes nothing. -/
theorem c5_variables_in_scope :
    ∀ (si : ScriptInfo) (line : Nat) (f : FunctionInfo),
      f ∈ si.functions → f.startLine ≤ line → line ≤ f.endLine →
      (∀ g ∈ si.functions, g.startLine ≤ line → line ≤ g.endLine → g = f) →
        getVariablesAtLine si line =
          si.classVariables ++ f.localVariables.filter (fun v => v.line ≤ line) := by
  intro si line f hmem hs he huniq
  unfold getVariablesAtLine
  rw [firstContaining_of_unique si.functions line f hmem hs he huniq]

/-- C5 witness: the parsed demo script has a class variable at line 1,
f1 on lines 3 to 10 and f2 on lines 12 to 20; the query at line 7
returns the class variables plus the locals of f1 declared at or before
line 7 and nothing of f2. -/
theorem c5_variables_in_scope_witness :
    (let si := parseGDScriptContent
      "var health: int = 100\n\nfunc f1(a, b):\n\tvar x = 1\n\tfor i in range(3):\n\t\tx = x + i\n\tvar y = 2\n\tz = 9\n\tpass\n\tpass\nvar other = 1\nfunc f2(c):\n\tvar w = 5\n\tpass\n\tpass\n\tpass\n\tpass\n\tpass\n\tpass\n\tpass".data
     let f := si.functions.headD ⟨[], 0, 0, [], []⟩
     getVariablesAtLine si 7 =
         si.classVariables ++ f.localVariables.filter (fun v => v.line ≤ 7) ∧
       (getVariablesAtLine si 7).map (fun v => v.name) =
         ["health".data, "other".data, "a".data, "b".data, "x".data, "i".data,
          "y".data] ∧
       si.functions.map (fun g => (g.name, g.startLine, g.endLine)) =
         [("f1".data, 3, 10), ("f2".data, 12, 20)]) := by
  intro si f
  refine ⟨c5_variables_in_scope si 7 f (by decide) (by decide) (by decide) (by decide),
    by decide, by decide⟩

/-! Helper lemmas for the function-start invariant of the scope
analyzer and for the parameter-splitting characterization. -/

theorem splitOnChar_of_not_mem (sep : Char) (s : List Char) (h : sep ∉ s) :
    splitOnChar sep s = [s] := by
  induction s with
  | nil => rfl
  | cons c r ih =>
    have hc : ¬ c = sep := fun hEq => h (hEq ▸ List.mem_cons_self c r)
    have hr : sep ∉ r := fun hm => h (List.mem_cons_of_mem c hm)
    simp [splitOnChar, hc, ih hr]

theorem splitOnChar_append_sep (sep : Char) (p t : List Char) (h : sep ∉ p) :
    splitOnChar sep (p ++ sep :: t) = p :: splitOnChar sep t := by
  induction p with
  | nil => simp [splitOnChar]
  | cons c p ih =>
    have hc : ¬ c = sep := fun hEq => h (hEq ▸ List.mem_cons_self c p)
    have hp : sep ∉ p := fun hm => h (List.mem_cons_of_mem c hm)
    rw [List.cons_append]
    simp only [splitOnChar, if_neg hc, ih hp]

theorem trimChars_eq_nil_iff (s : List Char) :
    trimChars s = [] ↔ ∀ c ∈ s, isWsChar c := by
  unfold trimChars
  rw [List.reverse_eq_nil_iff, List.dropWhile_eq_nil_iff]
  constructor
  · intro h c hc
    rcases List.mem_append.1
        ((List.takeWhile_append_dropWhile (p := isWsChar) (l := s)) ▸ hc) with hm | hm
    · exact List.mem_takeWhile_imp hm
    · exact h c (List.mem_reverse.2 hm)
  · intro h c hc
    exact h c ((List.dropWhile_sublist isWsChar).subset (List.mem_reverse.1 hc))

theorem closeCurrent_inv (lines : List (List Char)) (st : GDParseState) (i : Nat)
    (h1 : ∀ f ∈ st.functions, (funcM (lines.getD (f.startLine - 1) [])).isSome = true)
    (h2 : ∀ f, st.currentFunction = some f →
      (funcM (lines.getD (f.startLine - 1) [])).isSome = true) :
    (∀ f ∈ (closeCurrent st i).functions,
      (funcM (lines.getD (f.startLine - 1) [])).isSome = true) ∧
    (closeCurrent st i).currentFunction = none := by
  unfold closeCurrent
  cases hcf : st.currentFunction with
  | none => exact ⟨h1, hcf⟩
  | some cf =>
    refine ⟨?_, rfl⟩
    intro f hf
    rcases List.mem_append.1 hf with h | h
    · exact h1 f h
    · have hfe : f = { cf with endLine := i } := List.mem_singleton.1 h
      subst hfe
      simpa using h2 cf hcf

theorem processDeclLine_shape (st1 : GDParseState) (lineNum currentIndent : Nat)
    (line : List Char) :
    (processDeclLine st1 lineNum currentIndent line).functions = st1.functions ∧
    ((processDeclLine st1 lineNum currentIndent line).currentFunction =
        st1.currentFunction ∨
      ∃ cf lv, st1.currentFunction = some cf ∧
        (processDeclLine st1 lineNum currentIndent line).currentFunction =
          some { cf with localVariables := lv }) := by
  unfold processDeclLine
  split
  · exact ⟨rfl, Or.inl rfl⟩
  · split
    · next cf hcf =>
      split
      · exact ⟨rfl, Or.inr ⟨cf, _, hcf, rfl⟩⟩
      · split
        · exact ⟨rfl, Or.inr ⟨cf, _, hcf, rfl⟩⟩
        · split
          · dsimp only
            split
            · exact ⟨rfl, Or.inr ⟨cf, _, hcf, rfl⟩⟩
            · exact ⟨rfl, Or.inl rfl⟩
          · exact ⟨rfl, Or.inl rfl⟩
    · exact ⟨rfl, Or.inl rfl⟩

theorem processLine_inv (lines : List (List Char)) (st : GDParseState) (i : Nat)
    (l : List Char) (hl : lines.getD i [] = l)
    (h1 : ∀ f ∈ st.functions, (funcM (lines.getD (f.startLine - 1) [])).isSome = true)
    (h2 : ∀ f, st.currentFunction = some f →
      (funcM (lines.getD (f.startLine - 1) [])).isSome = true) :
    (∀ f ∈ (processLine st i l).functions,
      (funcM (lines.getD (f.startLine - 1) [])).isSome = true) ∧
    (∀ f, (processLine st i l).currentFunction = some f →
      (funcM (lines.getD (f.startLine - 1) [])).isSome = true) := by
  unfold processLine
  set st1 := (match st.currentFunction with
    | some _ =>
      if 0 < (l.dropWhile isWsChar).length ∧
          startsWithChars "#".data (l.dropWhile isWsChar) = false ∧
          l.length - (l.dropWhile isWsChar).length ≤ st.functionIndent ∧
          l.all isWsChar = false then
        closeCurrent st i
      else st
    | none => st) with hst1def
  have hst1a : ∀ f ∈ st1.functions,
      (funcM (lines.getD (f.startLine - 1) [])).isSome = true := by
    rw [hst1def]
    cases hcf : st.currentFunction with
    | none => exact h1
    | some cf =>
      by_cases hcond : 0 < (l.dropWhile isWsChar).length ∧
          startsWithChars "#".data (l.dropWhile isWsChar) = false ∧
          l.length - (l.dropWhile isWsChar).length ≤ st.functionIndent ∧
          l.all isWsChar = false
      · simp only [if_pos hcond]
        exact (closeCurrent_inv lines st i h1 h2).1
      · simp only [if_neg hcond]
        exact h1
  have hst1b : ∀ f, st1.currentFunction = some f →
      (funcM (lines.getD (f.startLine - 1) [])).isSome = true := by
    rw [hst1def]
    cases hcf : st.currentFunction with
    | none => exact h2
    | some cf =>
      by_cases hcond : 0 < (l.dropWhile isWsChar).length ∧
          startsWithChars "#".data (l.dropWhile isWsChar) = false ∧
          l.length - (l.dropWhile isWsChar).length ≤ st.functionIndent ∧
          l.all isWsChar = false
      · simp only [if_pos hcond]
        intro f hf
        rw [(closeCurrent_inv lines st i h1 h2).2] at hf
        cases hf
      · simp only [if_neg hcond]
        exact h2
  by_cases hbc : l.dropWhile isWsChar = [] ∨
      startsWithChars "#".data (l.dropWhile isWsChar) = true
  · simp only [if_pos hbc]
    exact ⟨hst1a, hst1b⟩
  · simp only [if_neg hbc]
    cases hf : funcM l with
    | some np =>
      constructor
      · intro f hf2
        exact (closeCurrent_inv lines st1 i hst1a hst1b).1 f hf2
      · intro f hf2
        simp only [Option.some.injEq] at hf2
        subst hf2
        simp only [Nat.add_sub_cancel, hl, hf, Option.isSome_some]
    | none =>
      obtain ⟨hfs, hcur⟩ := processDeclLine_shape st1 (i + 1)
        (l.length - (l.dropWhile isWsChar).length) l
      constructor
      · intro f hf2
        rw [hfs] at hf2
        exact hst1a f hf2
      · intro f hf2
        rcases hcur with hsame | ⟨cf, lv, hcf, hnew⟩
        · rw [hsame] at hf2
          exact hst1b f hf2
        · rw [hnew] at hf2
          simp only [Option.some.injEq] at hf2
          subst hf2
          simpa using hst1b cf hcf

theorem processLinesFrom_inv (lines : List (List Char)) :
    ∀ (rest : List (List Char)) (i : Nat) (st : GDParseState),
      lines.drop i = rest →
      (∀ f ∈ st.functions, (funcM (lines.getD (f.startLine - 1) [])).isSome = true) →
      (∀ f, st.currentFunction = some f →
        (funcM (lines.getD (f.startLine - 1) [])).isSome = true) →
      (∀ f ∈ (processLinesFrom i rest st).functions,
        (funcM (lines.getD (f.startLine - 1) [])).isSome = true) ∧
      (∀ f, (processLinesFrom i rest st).currentFunction = some f →
        (funcM (lines.getD (f.startLine - 1) [])).isSome = true) := by
  intro rest
  induction rest with
  | nil =>
    intro i st _ h1 h2
    exact ⟨h1, h2⟩
  | cons l rest ih =>
    intro i st hdrop h1 h2
    have hget : lines[i]? = some l := by
      have h0 := List.getElem?_drop lines i 0
      rw [hdrop] at h0
      simpa using h0.symm
    have hgetD : lines.getD i [] = l := by
      simp [List.getD, hget]
    have hdrop' : lines.drop (i + 1) = rest := by
      have : lines.drop (i + 1) = (lines.drop i).drop 1 := by
        rw [List.drop_drop]
      rw [this, hdrop]
      rfl
    have hstep := processLine_inv lines st i l hgetD h1 h2
    exact ih (i + 1) (processLine st i l) hdrop' hstep.1 hstep.2

theorem splitOnChar_joinWithComma (ps : List (List Char)) (hne : ps ≠ [])
    (h : ∀ p ∈ ps, ',' ∉ p) :
    splitOnChar ',' (joinWithComma ps) = ps := by
  induction ps with
  | nil => exact absurd rfl hne
  | cons p rest ih =>
    cases rest with
    | nil =>
      simp only [joinWithComma]
      exact splitOnChar_of_not_mem ',' p (h p (List.mem_cons_self p []))
    | cons q rest2 =>
      simp only [joinWithComma]
      rw [splitOnChar_append_sep ',' p _ (h p (List.mem_cons_self p _))]
      rw [ih (by simp) (fun r hr => h r (List.mem_cons_of_mem p hr))]

/-- C7 counterexample: a script whose only func line is indented (inside
an inner class) yields no function at all — the indented func line does
not begin a function, so the claim that a function begins at any
indentation is false at this input. -/
theorem c7_indented_func_counterexample :
    (parseGDScriptContent "class Inner:\n\tfunc g(a):\n\t\tpass".data).functions = [] ∧
      funcM "\tfunc g(a):".data = none := by
  decide

/-- C7 (amended): the scope analyzer begins a function only for a line
matching the anchored function-definition pattern, which requires the
func keyword at zero indentation (every recorded function points back to
such a line, and any match starts with the keyword at column 0); the
parameter list is obtained by splitting the parenthesized text on commas
and taking the leading identifier of each trimmed part, ignoring type
annotations and default values, as the concrete declaration list
demonstrates. -/
theorem c7_function_starts_and_parameters :
    (∀ (content : List Char) (f : FunctionInfo),
      f ∈ (parseGDScriptContent content).functions →
        (funcM ((splitOnChar '\n' content).getD (f.startLine - 1) [])).isSome = true) ∧
    (∀ l : List Char, (funcM l).isSome = true → startsWithChars "func".data l = true) ∧
    (∀ ps : List (List Char), ps ≠ [] → (∀ p ∈ ps, ',' ∉ p) →
      parseParametersFn (joinWithComma ps) =
        ps.filterMap (fun p =>
          let w := (trimChars p).takeWhile isWordChar
          if w = [] then none else some w)) ∧
    (parseGDScriptContent "func f(a: int, b = 3):\n\tpass".data).functions.map
        (fun f => (f.name, f.startLine, f.parameters)) =
      [("f".data, 1, ["a".data, "b".data])] := by
  refine ⟨?_, ?_, ?_, by decide⟩
  · intro content f hf
    have hinv := processLinesFrom_inv (splitOnChar '\n' content)
      (splitOnChar '\n' content) 0
      { classVariables := [], functions := [], currentFunction := none,
        functionIndent := 0 }
      (by rw [List.drop_zero]) (by intro g hg; cases hg) (by intro g hg; cases hg)
    set stFinal := processLinesFrom 0 (splitOnChar '\n' content)
      { classVariables := [], functions := [], currentFunction := none,
        functionIndent := 0 } with hstF
    have hfun : parseGDScriptContent content =
        (match stFinal.currentFunction with
         | some cf =>
           { classVariables := stFinal.classVariables,
             functions := stFinal.functions ++
               [{ cf with endLine := (splitOnChar '\n' content).length }] }
         | none =>
           { classVariables := stFinal.classVariables,
             functions := stFinal.functions }) := rfl
    rw [hfun] at hf
    cases hcf : stFinal.currentFunction with
    | none =>
      rw [hcf] at hf
      exact hinv.1 f hf
    | some cf =>
      rw [hcf] at hf
      rcases List.mem_append.1 hf with hm | hm
      · exact hinv.1 f hm
      · have hfe : f = { cf with endLine := (splitOnChar '\n' content).length } :=
          List.mem_singleton.1 hm
        subst hfe
        simpa using hinv.2 cf hcf
  · intro l h
    unfold funcM at h
    unfold startsWithChars
    by_cases hp : ("func".data).isPrefixOf l
    · exact hp
    · rw [stripChars, if_neg hp] at h
      cases h
  · intro ps hne hnc
    unfold parseParametersFn
    by_cases htrim : trimChars (joinWithComma ps) = []
    · rw [if_pos htrim]
      have hall := (trimChars_eq_nil_iff _).1 htrim
      cases ps with
      | nil => exact absurd rfl hne
      | cons p rest =>
        cases rest with
        | nil =>
          have hpw : ∀ c ∈ p, isWsChar c := by
            intro c hc
            exact hall c (by simpa [joinWithComma] using hc)
          have hptrim : trimChars p = [] := (trimChars_eq_nil_iff p).2 hpw
          simp [hptrim]
        | cons q rest2 =>
          exfalso
          have hcm : ',' ∈ joinWithComma (p :: q :: rest2) := by
            simp [joinWithComma]
          have hbad := hall ',' hcm
          simp [isWsChar] at hbad
    · rw [if_neg htrim]
      rw [splitOnChar_joinWithComma ps hne hnc]

/-- C7 witness: on the demo script every parsed function points at a
zero-indentation func line, and the parameter-splitting fact applied to
the concrete annotated declarations of the demo yields the bare
names. -/
theorem c7_function_starts_and_parameters_witness :
    (let content := "func f(a: int, b = 3):\n\tpass".data
     let si := parseGDScriptContent content
     let f := si.functions.headD ⟨[], 0, 0, [], []⟩
     f ∈ si.functions ∧
       (funcM ((splitOnChar '\n' content).getD (f.startLine - 1) [])).isSome = true ∧
       startsWithChars "func".data ((splitOnChar '\n' content).getD (f.startLine - 1) []) = true ∧
       parseParametersFn (joinWithComma ["a: int".data, " b = 3".data]) =
         ["a".data, "b".data]) := by
  intro content si f
  have hmem : f ∈ si.functions := by decide
  have h1 := c7_function_starts_and_parameters.1 content f hmem
  have h2 := c7_function_starts_and_parameters.2.1 _ h1
  have h3 := c7_function_starts_and_parameters.2.2.1
    ["a: int".data, " b = 3".data] (by decide)
    (by
      intro p hp
      rcases List.mem_cons.1 hp with h | h
      · subst h
        decide
      · rcases List.mem_cons.1 h with h' | h'
        · subst h'
          decide
        · cases h')
  refine ⟨hmem, h1, h2, ?_⟩
  rw [h3]
  decide

/-! Helper lemmas about decimal digits, used by both the frame codec
header and the JSON number round trip. -/

theorem digitVal_digitChar (d : Nat) (h : d < 10) : digitVal (digitChar d) = d := by
  interval_cases d <;> decide

theorem foldl_digitVal (f : Nat) :
    ∀ (n a : Nat), n ≤ f →
      List.foldl (fun acc c => acc * 10 + digitVal c) a
          ((natDigitsAux f n).reverse.map digitChar) =
        a * 10 ^ (natDigitsAux f n).length + n := by
  induction f with
  | zero =>
    intro n a h
    have hn : n = 0 := Nat.le_zero.1 h
    subst hn
    simp [natDigitsAux]
  | succ f ih =>
    intro n a h
    by_cases hz : n = 0
    · subst hz
      simp [natDigitsAux]
    · have hdiv : n / 10 ≤ f := by omega
      have hrec := ih (n / 10) a hdiv
      simp only [natDigitsAux, if_neg hz, List.reverse_cons, List.map_append,
        List.map_cons, List.map_nil, List.foldl_append, List.foldl_cons, List.foldl_nil,
        List.length_cons]
      rw [hrec, digitVal_digitChar (n % 10) (Nat.mod_lt n (by omega))]
      have hdm : n / 10 * 10 + n % 10 = n := by omega
      rw [pow_succ, ← mul_assoc]
      omega

theorem digitsVal_natToChars (n : Nat) : digitsVal (natToChars n) = n := by
  unfold natToChars
  by_cases hz : n = 0
  · subst hz
    decide
  · rw [if_neg hz]
    unfold digitsVal
    rw [foldl_digitVal n n 0 (le_refl n)]
    simp

theorem natDigitsAux_lt (f : Nat) : ∀ n d, d ∈ natDigitsAux f n → d < 10 := by
  induction f with
  | zero =>
    intro n d h
    cases h
  | succ f ih =>
    intro n d h
    by_cases hz : n = 0
    · subst hz
      simp [natDigitsAux] at h
    · rw [natDigitsAux, if_neg hz] at h
      rcases List.mem_cons.1 h with h | h
      · subst h
        exact Nat.mod_lt n (by omega)
      · exact ih (n / 10) d h

theorem natToChars_shape (n : Nat) :
    ∀ c ∈ natToChars n, ∃ d, d < 10 ∧ c = digitChar d := by
  intro c hc
  unfold natToChars at hc
  by_cases hz : n = 0
  · subst hz
    simp at hc
    exact ⟨0, by omega, hc⟩
  · rw [if_neg hz] at hc
    rcases List.mem_map.1 hc with ⟨d, hd, hdc⟩
    exact ⟨d, natDigitsAux_lt n n d (List.mem_reverse.1 hd), hdc.symm⟩

theorem natToChars_all_digits (n : Nat) :
    ∀ c ∈ natToChars n, isDigitChar c = true := by
  intro c hc
  obtain ⟨d, hd, hdc⟩ := natToChars_shape n c hc
  subst hdc
  interval_cases d <;> decide

theorem natToChars_no_cr (n : Nat) : ∀ c ∈ natToChars n, c ≠ '\r' := by
  intro c hc
  obtain ⟨d, hd, hdc⟩ := natToChars_shape n c hc
  subst hdc
  interval_cases d <;> decide

theorem natToChars_ne_nil (n : Nat) : natToChars n ≠ [] := by
  unfold natToChars
  by_cases hz : n = 0
  · subst hz
    decide
  · rw [if_neg hz]
    intro h
    have : natDigitsAux n n ≠ [] := by
      cases n with
      | zero => exact absurd rfl hz
      | succ m =>
        rw [natDigitsAux, if_neg hz]
        exact List.cons_ne_nil _ _
    simp at h
    exact this h

theorem digit_not_ws (c : Char) (h : isDigitChar c = true) : isWsChar c = false := by
  unfold isDigitChar Char.isDigit at h
  unfold isWsChar
  simp only [Bool.or_eq_false_iff]
  simp only [Bool.and_eq_true, decide_eq_true_eq] at h
  refine ⟨⟨⟨⟨⟨?_, ?_⟩, ?_⟩, ?_⟩, ?_⟩, ?_⟩ <;>
    · rw [beq_eq_false_iff_ne]
      intro hEq
      subst hEq
      revert h
      decide

theorem digit_ne_delims (c : Char) (h : isDigitChar c = true) :
    ¬c = 'n' ∧ ¬c = 't' ∧ ¬c = 'f' ∧ ¬c = '"' ∧ ¬c = '[' ∧ ¬c = '{' ∧ ¬c = '-' := by
  refine ⟨?_, ?_, ?_, ?_, ?_, ?_, ?_⟩ <;>
    · intro hEq
      subst hEq
      exact absurd h (by decide)

/-! List helper lemmas used to drive the embedded matchers over
abstract strings. -/

theorem stripChars_append (p t : List Char) : stripChars p (p ++ t) = some t := by
  unfold stripChars
  rw [if_pos ((List.isPrefixOf_iff_prefix).2 (List.prefix_append p t))]
  rw [List.drop_left]

theorem takeWhile_append_all (p : Char → Bool) (s t : List Char)
    (hs : ∀ c ∈ s, p c = true)
    (ht : ∀ c, t.head? = some c → p c = false) :
    (s ++ t).takeWhile p = s := by
  induction s with
  | nil =>
    cases t with
    | nil => rfl
    | cons c r =>
      simp [List.takeWhile_cons, ht c rfl]
  | cons c s ih =>
    simp [List.takeWhile_cons, hs c (List.mem_cons_self c s),
      ih (fun x hx => hs x (List.mem_cons_of_mem c hx))]

theorem dropWhile_append_all (p : Char → Bool) (s t : List Char)
    (hs : ∀ c ∈ s, p c = true)
    (ht : ∀ c, t.head? = some c → p c = false) :
    (s ++ t).dropWhile p = t := by
  induction s with
  | nil =>
    cases t with
    | nil => rfl
    | cons c r =>
      simp [List.dropWhile_cons, ht c rfl]
  | cons c s ih =>
    simp [List.dropWhile_cons, hs c (List.mem_cons_self c s),
      ih (fun x hx => hs x (List.mem_cons_of_mem c hx))]

/-! Head-shape lemmas about the serializer, used to pick the right
parser branch. -/

theorem intToChars_shape (k : Int) :
    (∃ tl, intToChars k = '-' :: tl) ∨
      ∃ d tl, d < 10 ∧ intToChars k = digitChar d :: tl := by
  unfold intToChars
  by_cases hk : k < 0
  · exact Or.inl ⟨_, by rw [if_pos hk]⟩
  · rw [if_neg hk]
    right
    cases hnc : natToChars k.toNat with
    | nil => exact absurd hnc (natToChars_ne_nil _)
    | cons c tl =>
      obtain ⟨d, hd, hdc⟩ := natToChars_shape k.toNat c (hnc ▸ List.mem_cons_self c tl)
      exact ⟨d, tl, hd, by rw [hdc]⟩

theorem stringifyJson_head_ne_rbrack (v : Json) :
    ∃ c cs, stringifyJson v = c :: cs ∧ ¬c = ']' := by
  cases v with
  | null => exact ⟨'n', _, rfl, by decide⟩
  | bool b =>
    cases b with
    | true => exact ⟨'t', _, rfl, by decide⟩
    | false => exact ⟨'f', _, rfl, by decide⟩
  | num k =>
    rcases intToChars_shape k with ⟨tl, htl⟩ | ⟨d, tl, hd, htl⟩
    · exact ⟨'-', tl, by simp [stringifyJson, htl], by decide⟩
    · refine ⟨digitChar d, tl, by simp [stringifyJson, htl], ?_⟩
      interval_cases d <;> decide
  | str s => exact ⟨'"', _, rfl, by decide⟩
  | arr items => exact ⟨'[', _, rfl, by decide⟩
  | obj ms => exact ⟨'{', _, rfl, by decide⟩

theorem itemsTail_head_not_digit (vs : JsonArr) (rest : List Char) :
    ∀ c, (stringifyItemsTail vs ++ rest).head? = some c → isDigitChar c = false := by
  intro c h
  cases vs with
  | nil =>
    simp [stringifyItemsTail] at h
    subst h
    decide
  | cons v vs2 =>
    simp [stringifyItemsTail] at h
    subst h
    decide

theorem membersTail_head_not_digit (ms : JsonObj) (rest : List Char) :
    ∀ c, (stringifyMembersTail ms ++ rest).head? = some c → isDigitChar c = false := by
  intro c h
  cases ms with
  | nil =>
    simp [stringifyMembersTail] at h
    subst h
    decide
  | cons k v ms2 =>
    simp [stringifyMembersTail] at h
    subst h
    decide

theorem hexVal_hexDigitChar (d : Nat) (h : d < 16) :
    hexVal (hexDigitChar d) = some d := by
  interval_cases d <;> decide

/-- Round trip of the JSON string escaping: parsing the escaped body
followed by the closing quote recovers the original characters. -/
theorem parseStrBody_escape (s : List Char) :
    ∀ rest, parseStrBody (escapeString s ++ '"' :: rest) = some (s, rest) := by
  induction s with
  | nil =>
    intro rest
    rw [show escapeString [] = [] from rfl, List.nil_append, parseStrBody.eq_def]
    simp
  | cons c s ih =>
    intro rest
    have hesc : escapeString (c :: s) = escapeChar c ++ escapeString s := by
      simp [escapeString]
    rw [hesc, List.append_assoc]
    by_cases h1 : c = '"'
    · subst h1
      rw [show escapeChar '"' = ['\\', '"'] from rfl]
      simp only [List.cons_append, List.nil_append]
      rw [parseStrBody.eq_def]
      simp [ih]
    · by_cases h2 : c = '\\'
      · subst h2
        rw [show escapeChar '\\' = ['\\', '\\'] from rfl]
        simp only [List.cons_append, List.nil_append]
        rw [parseStrBody.eq_def]
        simp [ih]
      · by_cases h3 : c = '\x08'
        · subst h3
          rw [show escapeChar '\x08' = ['\\', 'b'] from rfl]
          simp only [List.cons_append, List.nil_append]
          rw [parseStrBody.eq_def]
          simp [ih]
        · by_cases h4 : c = '\t'
          · subst h4
            rw [show escapeChar '\t' = ['\\', 't'] from rfl]
            simp only [List.cons_append, List.nil_append]
            rw [parseStrBody.eq_def]
            simp [ih]
          · by_cases h5 : c = '\n'
            · subst h5
              rw [show escapeChar '\n' = ['\\', 'n'] from rfl]
              simp only [List.cons_append, List.nil_append]
              rw [parseStrBody.eq_def]
              simp [ih]
            · by_cases h6 : c = '\x0c'
              · subst h6
                rw [show escapeChar '\x0c' = ['\\', 'f'] from rfl]
                simp only [List.cons_append, List.nil_append]
                rw [parseStrBody.eq_def]
                simp [ih]
              · by_cases h7 : c = '\r'
                · subst h7
                  rw [show escapeChar '\r' = ['\\', 'r'] from rfl]
                  simp only [List.cons_append, List.nil_append]
                  rw [parseStrBody.eq_def]
                  simp [ih]
                · by_cases h8 : c.toNat < 32
                  · rw [escapeChar, if_neg h1, if_neg h2, if_neg h3, if_neg h4,
                      if_neg h5, if_neg h6, if_neg h7, if_pos h8]
                    have hdiv : c.toNat / 16 < 16 := by omega
                    have hmod : c.toNat % 16 < 16 := by omega
                    simp only [List.cons_append, List.nil_append]
                    rw [parseStrBody.eq_def]
                    simp only [if_neg (by decide : ¬('\\' = '"')), if_pos rfl]
                    simp only [if_neg (by decide : ¬('u' = '"')),
                      if_neg (by decide : ¬('u' = '\\')),
                      if_neg (by decide : ¬('u' = 'b')),
                      if_neg (by decide : ¬('u' = 't')),
                      if_neg (by decide : ¬('u' = 'n')),
                      if_neg (by decide : ¬('u' = 'f')),
                      if_neg (by decide : ¬('u' = 'r')),
                      if_pos (rfl : 'u' = 'u')]
                    rw [show hexVal '0' = some 0 from by decide,
                      hexVal_hexDigitChar _ hdiv, hexVal_hexDigitChar _ hmod]
                    have hval : ((0 * 16 + 0) * 16 + c.toNat / 16) * 16 + c.toNat % 16 =
                        c.toNat := by omega
                    have h55 : c.toNat < 55296 := by omega
                    simp [hval, h55, ih, Char.ofNat_toNat]
                    refine ⟨by omega, ?_⟩
                    have hval2 : c.toNat / 16 * 16 + c.toNat % 16 = c.toNat := by omega
                    rw [hval2, Char.ofNat_toNat]
                  · rw [escapeChar, if_neg h1, if_neg h2, if_neg h3, if_neg h4,
                      if_neg h5, if_neg h6, if_neg h7, if_neg h8]
                    simp only [List.cons_append, List.nil_append]
                    rw [parseStrBody.eq_def]
                    simp only [if_neg h1, if_neg h2]
                    rw [ih rest]
                    rfl

/-- Digit-headed input: the parser consumes exactly the rendered digits
of a natural number when the remainder does not start with a digit. -/
theorem parseVal_digits (n fuel : Nat) (rest : List Char)
    (hrest : ∀ c, rest.head? = some c → isDigitChar c = false) :
    parseVal (fuel + 1) (natToChars n ++ rest) = some (Json.num (n : Int), rest) := by
  cases hnc : natToChars n with
  | nil => exact absurd hnc (natToChars_ne_nil n)
  | cons c0 tl =>
    have hall : ∀ c ∈ natToChars n, isDigitChar c = true := natToChars_all_digits n
    have hc0 : isDigitChar c0 = true := hall c0 (hnc ▸ List.mem_cons_self c0 tl)
    obtain ⟨hn1, hn2, hn3, hn4, hn5, hn6, hn7⟩ := digit_ne_delims c0 hc0
    rw [List.cons_append, parseVal.eq_def]
    simp only [if_neg hn1, if_neg hn2, if_neg hn3, if_neg hn4, if_neg hn5, if_neg hn6,
      if_neg hn7, if_pos hc0]
    rw [show c0 :: (tl ++ rest) = natToChars n ++ rest by rw [hnc, List.cons_append]]
    rw [takeWhile_append_all isDigitChar (natToChars n) rest hall hrest]
    rw [digitsVal_natToChars, List.drop_left]

/-- The number branch of the round trip, both signs. -/
theorem parseVal_num (k : Int) (fuel : Nat) (rest : List Char)
    (hrest : ∀ c, rest.head? = some c → isDigitChar c = false) :
    parseVal (fuel + 1) (intToChars k ++ rest) = some (Json.num k, rest) := by
  by_cases hk : k < 0
  · rw [show intToChars k = '-' :: natToChars (-k).toNat by simp [intToChars, hk]]
    rw [List.cons_append, parseVal.eq_def]
    simp only [if_neg (by decide : ¬('-' = 'n')), if_neg (by decide : ¬('-' = 't')),
      if_neg (by decide : ¬('-' = 'f')), if_neg (by decide : ¬('-' = '"')),
      if_neg (by decide : ¬('-' = '[')), if_neg (by decide : ¬('-' = '{')),
      if_pos (rfl : '-' = '-')]
    rw [takeWhile_append_all isDigitChar (natToChars (-k).toNat) rest
      (natToChars_all_digits _) hrest]
    rw [if_neg (natToChars_ne_nil _), digitsVal_natToChars, List.drop_left]
    have : ((((-k).toNat : Nat) : Int)) = -k := Int.toNat_of_nonneg (by omega)
    rw [this]
    simp
  · rw [show intToChars k = natToChars k.toNat by simp [intToChars, hk]]
    rw [parseVal_digits k.toNat fuel rest hrest]
    have : ((k.toNat : Nat) : Int) = k := Int.toNat_of_nonneg (by omega)
    rw [this]

/-- Round trip of the JSON serializer and parser: with enough fuel the
parser recovers exactly the serialized value and leaves the remainder
untouched, provided the remainder does not begin with a digit. -/
theorem parse_roundtrip :
    ∀ fuel : Nat,
      (∀ (v : Json) (rest : List Char), jsize v ≤ fuel →
        (∀ c, rest.head? = some c → isDigitChar c = false) →
        parseVal fuel (stringifyJson v ++ rest) = some (v, rest)) ∧
      (∀ (vs : JsonArr) (rest : List Char), isize vs ≤ fuel →
        (∀ c, rest.head? = some c → isDigitChar c = false) →
        parseItems fuel (stringifyItems vs ++ rest) = some (vs, rest)) ∧
      (∀ (vs : JsonArr) (rest : List Char), tsize vs ≤ fuel →
        (∀ c, rest.head? = some c → isDigitChar c = false) →
        parseItemsTail fuel (stringifyItemsTail vs ++ rest) = some (vs, rest)) ∧
      (∀ (ms : JsonObj) (rest : List Char), msize ms ≤ fuel →
        (∀ c, rest.head? = some c → isDigitChar c = false) →
        parseMembers fuel (stringifyMembers ms ++ rest) = some (ms, rest)) ∧
      (∀ (ms : JsonObj) (rest : List Char), osize ms ≤ fuel →
        (∀ c, rest.head? = some c → isDigitChar c = false) →
        parseMembersTail fuel (stringifyMembersTail ms ++ rest) = some (ms, rest)) := by
  intro fuel
  induction fuel with
  | zero =>
    refine ⟨?_, ?_, ?_, ?_, ?_⟩
    · intro v rest hsize hrest
      exfalso
      cases v <;> simp [jsize] at hsize
    · intro vs rest hsize hrest
      exfalso
      cases vs <;> simp [isize] at hsize
    · intro vs rest hsize hrest
      exfalso
      cases vs <;> simp [tsize] at hsize
    · intro ms rest hsize hrest
      exfalso
      cases ms <;> simp [msize] at hsize
    · intro ms rest hsize hrest
      exfalso
      cases ms <;> simp [osize] at hsize
  | succ n ih =>
    obtain ⟨ihV, ihI, ihT, ihM, ihO⟩ := ih
    refine ⟨?_, ?_, ?_, ?_, ?_⟩
    · intro v rest hsize hrest
      cases v with
      | null =>
        rw [show stringifyJson Json.null ++ rest = 'n' :: ("ull".data ++ rest) from rfl]
        rw [parseVal.eq_def]
        simp
        exact stripChars_append ['u', 'l', 'l'] rest
      | bool b =>
        cases b with
        | true =>
          rw [show stringifyJson (Json.bool true) ++ rest =
            't' :: ("rue".data ++ rest) from rfl]
          rw [parseVal.eq_def]
          simp
          exact stripChars_append ['r', 'u', 'e'] rest
        | false =>
          rw [show stringifyJson (Json.bool false) ++ rest =
            'f' :: ("alse".data ++ rest) from rfl]
          rw [parseVal.eq_def]
          simp
          exact stripChars_append ['a', 'l', 's', 'e'] rest
      | num k =>
        rw [show stringifyJson (Json.num k) = intToChars k from rfl]
        exact parseVal_num k n rest hrest
      | str s =>
        rw [show stringifyJson (Json.str s) = '"' :: (escapeString s ++ ['"']) from rfl,
          List.cons_append, List.append_assoc,
          show ['"'] ++ rest = '"' :: rest from rfl]
        rw [parseVal.eq_def]
        simp [parseStrBody_escape]
      | arr items =>
        have hsz : isize items ≤ n := by
          simp [jsize] at hsize
          omega
        have hI := ihI items rest hsz hrest
        rw [show stringifyJson (Json.arr items) = '[' :: stringifyItems items from rfl,
          List.cons_append]
        rw [parseVal.eq_def]
        simp [hI]
      | obj ms =>
        have hsz : msize ms ≤ n := by
          simp [jsize] at hsize
          omega
        have hM := ihM ms rest hsz hrest
        rw [show stringifyJson (Json.obj ms) = '{' :: stringifyMembers ms from rfl,
          List.cons_append]
        rw [parseVal.eq_def]
        simp [hM]
    · intro vs rest hsize hrest
      cases vs with
      | nil =>
        rw [show stringifyItems JsonArr.nil ++ rest = ']' :: rest from rfl]
        rw [parseItems.eq_def]
        simp
      | cons v vs2 =>
        have hmax : max (jsize v) (tsize vs2) ≤ n := by
          simp [isize] at hsize
          omega
        have hv : jsize v ≤ n := le_trans (le_max_left _ _) hmax
        have ht : tsize vs2 ≤ n := le_trans (le_max_right _ _) hmax
        have hV := ihV v (stringifyItemsTail vs2 ++ rest) hv
          (itemsTail_head_not_digit vs2 rest)
        have hT := ihT vs2 rest ht hrest
        obtain ⟨c, cs, hcs, hcne⟩ := stringifyJson_head_ne_rbrack v
        rw [show stringifyItems (JsonArr.cons v vs2) = stringifyJson v ++
          stringifyItemsTail vs2 from rfl, List.append_assoc, hcs, List.cons_append]
        rw [parseItems.eq_def]
        simp only [if_neg hcne]
        rw [show c :: (cs ++ (stringifyItemsTail vs2 ++ rest)) =
          stringifyJson v ++ (stringifyItemsTail vs2 ++ rest) by
            rw [hcs, List.cons_append]]
        rw [hV]
        simp [hT]
    · intro vs rest hsize hrest
      cases vs with
      | nil =>
        rw [show stringifyItemsTail JsonArr.nil ++ rest = ']' :: rest from rfl]
        rw [parseItemsTail.eq_def]
        simp
      | cons v vs2 =>
        have hmax : max (jsize v) (tsize vs2) ≤ n := by
          simp [tsize] at hsize
          omega
        have hv : jsize v ≤ n := le_trans (le_max_left _ _) hmax
        have ht : tsize vs2 ≤ n := le_trans (le_max_right _ _) hmax
        have hV := ihV v (stringifyItemsTail vs2 ++ rest) hv
          (itemsTail_head_not_digit vs2 rest)
        have hT := ihT vs2 rest ht hrest
        rw [show stringifyItemsTail (JsonArr.cons v vs2) ++ rest =
          ',' :: (stringifyJson v ++ (stringifyItemsTail vs2 ++ rest)) by
            simp [stringifyItemsTail]]
        rw [parseItemsTail.eq_def]
        simp [hV, hT]
    · intro ms rest hsize hrest
      cases ms with
      | nil =>
        rw [show stringifyMembers JsonObj.nil ++ rest = '}' :: rest from rfl]
        rw [parseMembers.eq_def]
        simp
      | cons k v ms2 =>
        have hmax : max (jsize v) (osize ms2) ≤ n := by
          simp [msize] at hsize
          omega
        have hv : jsize v ≤ n := le_trans (le_max_left _ _) hmax
        have ho : osize ms2 ≤ n := le_trans (le_max_right _ _) hmax
        have hV := ihV v (stringifyMembersTail ms2 ++ rest) hv
          (membersTail_head_not_digit ms2 rest)
        have hO := ihO ms2 rest ho hrest
        rw [show stringifyMembers (JsonObj.cons k v ms2) ++ rest =
          '"' :: (escapeString k ++ '"' :: ':' ::
            (stringifyJson v ++ (stringifyMembersTail ms2 ++ rest))) by
            simp [stringifyMembers]]
        rw [parseMembers.eq_def]
        simp [parseStrBody_escape, hV, hO]
    · intro ms rest hsize hrest
      cases ms with
      | nil =>
        rw [show stringifyMembersTail JsonObj.nil ++ rest = '}' :: rest from rfl]
        rw [parseMembersTail.eq_def]
        simp
      | cons k v ms2 =>
        have hmax : max (jsize v) (osize ms2) ≤ n := by
          simp [osize] at hsize
          omega
        have hv : jsize v ≤ n := le_trans (le_max_left _ _) hmax
        have ho : osize ms2 ≤ n := le_trans (le_max_right _ _) hmax
        have hV := ihV v (stringifyMembersTail ms2 ++ rest) hv
          (membersTail_head_not_digit ms2 rest)
        have hO := ihO ms2 rest ho hrest
        rw [show stringifyMembersTail (JsonObj.cons k v ms2) ++ rest =
          ',' :: '"' :: (escapeString k ++ '"' :: ':' ::
            (stringifyJson v ++ (stringifyMembersTail ms2 ++ rest))) by
            simp [stringifyMembersTail]]
        rw [parseMembersTail.eq_def]
        simp [parseStrBody_escape, hV, hO]

theorem intToChars_length_pos (k : Int) : 1 ≤ (intToChars k).length := by
  rcases intToChars_shape k with ⟨tl, h⟩ | ⟨d, tl, hd, h⟩ <;> rw [h] <;> simp

theorem stringifyJson_length_pos (v : Json) : 1 ≤ (stringifyJson v).length := by
  obtain ⟨c, cs, hcs, _⟩ := stringifyJson_head_ne_rbrack v
  rw [hcs]
  simp

theorem stringifyItemsTail_length_pos (vs : JsonArr) :
    1 ≤ (stringifyItemsTail vs).length := by
  cases vs <;> simp [stringifyItemsTail]

theorem stringifyMembersTail_length_pos (ms : JsonObj) :
    1 ≤ (stringifyMembersTail ms).length := by
  cases ms <;> simp [stringifyMembersTail]

mutual

theorem jsize_le_length : ∀ v : Json, jsize v ≤ (stringifyJson v).length
  | .null => by simp [jsize, stringifyJson]
  | .bool b => by cases b <;> simp [jsize, stringifyJson]
  | .num k => by
    have h := intToChars_length_pos k
    simp only [jsize, stringifyJson]
    omega
  | .str s => by simp [jsize, stringifyJson]
  | .arr items => by
    have h := isize_le_length items
    simp only [jsize, stringifyJson, List.length_cons]
    omega
  | .obj ms => by
    have h := msize_le_length ms
    simp only [jsize, stringifyJson, List.length_cons]
    omega

theorem isize_le_length : ∀ vs : JsonArr, isize vs ≤ (stringifyItems vs).length
  | .nil => by simp [isize, stringifyItems]
  | .cons v rest => by
    have h1 := jsize_le_length v
    have h2 := tsize_le_length rest
    have h3 := stringifyJson_length_pos v
    have h4 := stringifyItemsTail_length_pos rest
    simp only [isize, stringifyItems, List.length_append]
    rcases Nat.le_total (jsize v) (tsize rest) with h | h
    · rw [Nat.max_eq_right h]
      omega
    · rw [Nat.max_eq_left h]
      omega

theorem tsize_le_length : ∀ vs : JsonArr, tsize vs ≤ (stringifyItemsTail vs).length
  | .nil => by simp [tsize, stringifyItemsTail]
  | .cons v rest => by
    have h1 := jsize_le_length v
    have h2 := tsize_le_length rest
    have h3 := stringifyJson_length_pos v
    have h4 := stringifyItemsTail_length_pos rest
    simp only [tsize, stringifyItemsTail, List.length_cons, List.length_append]
    rcases Nat.le_total (jsize v) (tsize rest) with h | h
    · rw [Nat.max_eq_right h]
      omega
    · rw [Nat.max_eq_left h]
      omega

theorem msize_le_length : ∀ ms : JsonObj, msize ms ≤ (stringifyMembers ms).length
  | .nil => by simp [msize, stringifyMembers]
  | .cons k v rest => by
    have h1 := jsize_le_length v
    have h2 := osize_le_length rest
    have h3 := stringifyJson_length_pos v
    have h4 := stringifyMembersTail_length_pos rest
    simp only [msize, stringifyMembers, List.length_cons, List.length_append]
    rcases Nat.le_total (jsize v) (osize rest) with h | h
    · rw [Nat.max_eq_right h]
      omega
    · rw [Nat.max_eq_left h]
      omega

theorem osize_le_length : ∀ ms : JsonObj, osize ms ≤ (stringifyMembersTail ms).length
  | .nil => by simp [osize, stringifyMembersTail]
  | .cons k v rest => by
    have h1 := jsize_le_length v
    have h2 := osize_le_length rest
    have h3 := stringifyJson_length_pos v
    have h4 := stringifyMembersTail_length_pos rest
    simp only [osize, stringifyMembersTail, List.length_cons, List.length_append]
    rcases Nat.le_total (jsize v) (osize rest) with h | h
    · rw [Nat.max_eq_right h]
      omega
    · rw [Nat.max_eq_left h]
      omega

end

/-- Model of JSON.parse applied to a full JSON.stringify output. -/
theorem jsonParseFull_stringifyJson (v : Json) :
    jsonParseFull (stringifyJson v) = some v := by
  unfold jsonParseFull
  have h := (parse_roundtrip (stringifyJson v).length).1 v [] (jsize_le_length v)
    (by intro c hc; simp at hc)
  rw [List.append_nil] at h
  rw [h]

/-! Frame-codec lemmas: locating the blank line, reading the header,
and the behaviour of the extraction loop on full and partial frames. -/

theorem startsWithChars_append (p t : List Char) : startsWithChars p (p ++ t) = true := by
  unfold startsWithChars
  exact (List.isPrefixOf_iff_prefix).2 (List.prefix_append p t)

theorem marker_no_start (c : Char) (r : List Char) (h : c ≠ '\r') :
    startsWithChars "\r\n\r\n".data (c :: r) = false := by
  rw [show "\r\n\r\n".data = ['\r', '\n', '\r', '\n'] from rfl]
  unfold startsWithChars
  rw [show List.isPrefixOf ['\r', '\n', '\r', '\n'] (c :: r) =
    (('\r' == c) && List.isPrefixOf ['\n', '\r', '\n'] r) from rfl]
  have hbe : ('\r' == c) = false := by
    rw [beq_eq_false_iff_ne]
    exact fun hEq => h hEq.symm
  rw [hbe]
  simp

theorem findMarker_none_of_no_cr (s : List Char) (h : ∀ c ∈ s, c ≠ '\r') :
    findMarker s = none := by
  induction s with
  | nil => rfl
  | cons c r ih =>
    rw [findMarker, if_neg (by
      rw [marker_no_start c r (h c (List.mem_cons_self c r))]
      exact Bool.false_ne_true)]
    rw [ih (fun x hx => h x (List.mem_cons_of_mem c hx))]
    rfl

theorem findMarker_append (xs ys : List Char) (h : ∀ c ∈ xs, c ≠ '\r') :
    findMarker (xs ++ '\r' :: '\n' :: '\r' :: '\n' :: ys) = some xs.length := by
  induction xs with
  | nil =>
    rw [List.nil_append, findMarker, if_pos (by
      rw [show '\r' :: '\n' :: '\r' :: '\n' :: ys = "\r\n\r\n".data ++ ys from rfl]
      exact startsWithChars_append _ _)]
    rfl
  | cons c xs ih =>
    rw [List.cons_append, findMarker, if_neg (by
      rw [marker_no_start c _ (h c (List.mem_cons_self c xs))]
      exact Bool.false_ne_true)]
    rw [ih (fun x hx => h x (List.mem_cons_of_mem c hx))]
    simp

theorem findMarker_stub (xs m : List Char) (hx : ∀ c ∈ xs, c ≠ '\r')
    (hm : m = [] ∨ m = ['\r'] ∨ m = ['\r', '\n'] ∨ m = ['\r', '\n', '\r']) :
    findMarker (xs ++ m) = none := by
  induction xs with
  | nil =>
    rcases hm with h | h | h | h <;> subst h <;> decide
  | cons c xs ih =>
    rw [List.cons_append, findMarker, if_neg (by
      rw [marker_no_start c _ (hx c (List.mem_cons_self c xs))]
      exact Bool.false_ne_true)]
    rw [ih (fun x hx2 => hx x (List.mem_cons_of_mem c hx2))]
    rfl

theorem tryCLAt_header (n : Nat) :
    tryCLAt ("Content-Length: ".data ++ natToChars n) = some n := by
  unfold tryCLAt
  have htake : ("Content-Length: ".data ++ natToChars n).take 15 =
      "Content-Length:".data := by
    rw [List.take_append_of_le_length (by decide)]
    decide
  rw [htake, if_pos (by decide)]
  have hdrop : ("Content-Length: ".data ++ natToChars n).drop 15 =
      [' '] ++ natToChars n := by
    rw [List.drop_append_of_le_length (by decide)]
    rw [show ("Content-Length: ".data).drop 15 = [' '] from by decide]
  rw [hdrop]
  have hdw : ([' '] ++ natToChars n).dropWhile isWsChar = natToChars n := by
    refine dropWhile_append_all isWsChar [' '] (natToChars n) (by decide) ?_
    intro c hc
    have hcm : c ∈ natToChars n := by
      cases hnc : natToChars n with
      | nil =>
        rw [hnc] at hc
        cases hc
      | cons a tl =>
        rw [hnc] at hc
        simp at hc
        subst hc
        exact List.mem_cons_self a tl
    exact digit_not_ws c (natToChars_all_digits n c hcm)
  rw [hdw]
  have htw : (natToChars n).takeWhile isDigitChar = natToChars n := by
    have h := takeWhile_append_all isDigitChar (natToChars n) []
      (natToChars_all_digits n) (by intro c hc; simp at hc)
    simpa using h
  simp only [htw]
  rw [if_neg (natToChars_ne_nil n), digitsVal_natToChars]

theorem scanContentLength_header (n : Nat) :
    scanContentLength ("Content-Length: ".data ++ natToChars n) = some n := by
  have h := tryCLAt_header n
  rw [show "Content-Length: ".data ++ natToChars n =
    'C' :: ("ontent-Length: ".data ++ natToChars n) from rfl] at h ⊢
  rw [scanContentLength]
  rw [h]

theorem byteLen_eq_length (s : List Char) (h : ∀ c ∈ s, c.toNat < 128) :
    byteLen s = s.length := by
  induction s with
  | nil => rfl
  | cons c r ih =>
    have hc : utf8Width c = 1 := by
      unfold utf8Width
      rw [if_pos (h c (List.mem_cons_self c r))]
    unfold byteLen at ih ⊢
    simp only [List.map_cons, List.sum_cons, hc, List.length_cons]
    rw [ih (fun x hx => h x (List.mem_cons_of_mem c hx))]
    omega

theorem processBuffer_nil (f : Nat) : processBuffer f [] = ([], []) := by
  cases f <;> rfl

theorem header_no_cr (n : Nat) :
    ∀ c ∈ "Content-Length: ".data ++ natToChars n, c ≠ '\r' := by
  have hlit : ∀ c ∈ "Content-Length: ".data, c ≠ '\r' := by decide
  intro c hc
  rcases List.mem_append.1 hc with h | h
  · exact hlit c h
  · exact natToChars_no_cr n c h

/-- The extraction loop on exactly one complete frame: it emits the
payload and leaves an empty buffer. -/
theorem processBuffer_full (pl : List Char) (hascii : ∀ c ∈ pl, c.toNat < 128)
    (f : Nat) :
    processBuffer (f + 1)
        ("Content-Length: ".data ++ natToChars (byteLen pl) ++
          '\r' :: '\n' :: '\r' :: '\n' :: pl) =
      ([], [pl]) := by
  have hn : byteLen pl = pl.length := byteLen_eq_length pl hascii
  set H := "Content-Length: ".data ++ natToChars (byteLen pl) with hH
  have hfm : findMarker (H ++ '\r' :: '\n' :: '\r' :: '\n' :: pl) = some H.length :=
    findMarker_append H pl (header_no_cr (byteLen pl))
  have htake : (H ++ '\r' :: '\n' :: '\r' :: '\n' :: pl).take H.length = H :=
    List.take_left H _
  have hscan : scanContentLength H = some (byteLen pl) := by
    rw [hH]
    exact scanContentLength_header (byteLen pl)
  have hlen : (H ++ '\r' :: '\n' :: '\r' :: '\n' :: pl).length =
      H.length + 4 + pl.length := by
    simp
    omega
  have hsplit : H ++ '\r' :: '\n' :: '\r' :: '\n' :: pl =
      (H ++ ['\r', '\n', '\r', '\n']) ++ pl := by
    simp
  have hdrop4 : (H ++ '\r' :: '\n' :: '\r' :: '\n' :: pl).drop (H.length + 4) = pl := by
    rw [hsplit, show H.length + 4 = (H ++ ['\r', '\n', '\r', '\n']).length by simp]
    exact List.drop_left _ _
  have hdropEnd : (H ++ '\r' :: '\n' :: '\r' :: '\n' :: pl).drop
      (H.length + 4 + byteLen pl) = [] := by
    rw [show H.length + 4 + byteLen pl =
      (H ++ '\r' :: '\n' :: '\r' :: '\n' :: pl).length by rw [hlen, hn]]
    exact List.drop_length _
  rw [processBuffer.eq_def]
  simp only [hfm, htake, hscan]
  rw [if_neg (by rw [hlen, hn]; omega)]
  rw [hdrop4, hdropEnd, processBuffer_nil, hn, List.take_length]

/-- The extraction loop on a proper non-empty beginning of a frame: no
message is complete, the buffer is retained untouched. -/
theorem processBuffer_incomplete (pl p t : List Char)
    (hascii : ∀ c ∈ pl, c.toNat < 128) (f : Nat) (ht : t ≠ [])
    (hpt : p ++ t = "Content-Length: ".data ++ natToChars (byteLen pl) ++
      '\r' :: '\n' :: '\r' :: '\n' :: pl) :
    processBuffer f p = (p, []) := by
  have hn : byteLen pl = pl.length := byteLen_eq_length pl hascii
  set H := "Content-Length: ".data ++ natToChars (byteLen pl) with hH
  cases f with
  | zero => rfl
  | succ f =>
    have hptake : ∀ k, k ≤ p.length →
        p.take k = (H ++ '\r' :: '\n' :: '\r' :: '\n' :: pl).take k := by
      intro k hk
      rw [← hpt, List.take_append_of_le_length hk]
    have hplen : p.length + t.length = H.length + 4 + pl.length := by
      have := congrArg List.length hpt
      simp at this
      omega
    have htlen : 1 ≤ t.length := by
      cases t with
      | nil => exact absurd rfl ht
      | cons a b => simp
    by_cases h1 : p.length ≤ H.length
    · have hpre : p = H.take p.length := by
        have h2 := hptake p.length (le_refl _)
        rw [List.take_length, List.take_append_of_le_length h1] at h2
        exact h2
      have hnoCR : ∀ c ∈ p, c ≠ '\r' := by
        intro c hc
        rw [hpre] at hc
        exact header_no_cr (byteLen pl) c (List.take_subset _ _ hc)
      rw [processBuffer.eq_def]
      simp only [findMarker_none_of_no_cr p hnoCR]
    · by_cases h2 : p.length < H.length + 4
      · have hform : p = H ++ ['\r', '\n', '\r', '\n'].take (p.length - H.length) := by
          have h3 := hptake p.length (le_refl _)
          rw [List.take_length,
            show H ++ '\r' :: '\n' :: '\r' :: '\n' :: pl =
              H ++ (['\r', '\n', '\r', '\n'] ++ pl) by simp,
            List.take_append_eq_append_take,
            List.take_of_length_le (by omega),
            List.take_append_of_le_length (by simp; omega)] at h3
          exact h3
        have hnone : findMarker p = none := by
          rw [hform]
          refine findMarker_stub H _ (header_no_cr (byteLen pl)) ?_
          have hj1 : 1 ≤ p.length - H.length := by omega
          have hj3 : p.length - H.length ≤ 3 := by omega
          interval_cases h : (p.length - H.length)
          · exact Or.inr (Or.inl rfl)
          · exact Or.inr (Or.inr (Or.inl rfl))
          · exact Or.inr (Or.inr (Or.inr rfl))
        rw [processBuffer.eq_def]
        simp only [hnone]
      · have hform : p = (H ++ ['\r', '\n', '\r', '\n']) ++
            pl.take (p.length - (H.length + 4)) := by
          have h3 := hptake p.length (le_refl _)
          rw [List.take_length,
            show H ++ '\r' :: '\n' :: '\r' :: '\n' :: pl =
              (H ++ ['\r', '\n', '\r', '\n']) ++ pl by simp,
            List.take_append_eq_append_take,
            List.take_of_length_le (by simp; omega)] at h3
          rw [show (H ++ ['\r', '\n', '\r', '\n']).length = H.length + 4 by simp] at h3
          exact h3
        have hfm : findMarker p = some H.length := by
          rw [hform, List.append_assoc,
            show ['\r', '\n', '\r', '\n'] ++ pl.take (p.length - (H.length + 4)) =
              '\r' :: '\n' :: '\r' :: '\n' :: pl.take (p.length - (H.length + 4))
              from rfl]
          exact findMarker_append H _ (header_no_cr (byteLen pl))
        have htake : p.take H.length = H := by
          rw [hptake H.length (by omega), List.take_left H _]
        have hscan : scanContentLength H = some (byteLen pl) := by
          rw [hH]
          exact scanContentLength_header (byteLen pl)
        rw [processBuffer.eq_def]
        simp only [hfm, htake, hscan]
        rw [if_pos (by rw [hn]; omega)]

theorem joinChunks_eq_nil (chunks : List (List Char)) (h : joinChunks chunks = []) :
    ∀ x ∈ chunks, x = [] := by
  induction chunks with
  | nil =>
    intro x hx
    cases hx
  | cons c cs ih =>
    rw [show joinChunks (c :: cs) = c ++ joinChunks cs from rfl] at h
    obtain ⟨h1, h2⟩ := List.append_eq_nil.1 h
    intro x hx
    rcases List.mem_cons.1 hx with hx | hx
    · rw [hx, h1]
    · exact ih h2 x hx

theorem foldFeed_empties (chunks : List (List Char)) (h : ∀ x ∈ chunks, x = []) :
    ∀ acc : List (List Char),
      List.foldl
          (fun st c =>
            let r := feedChunk st.1 c
            (r.1, st.2 ++ r.2))
          ([], acc) chunks = ([], acc) := by
  induction chunks with
  | nil =>
    intro acc
    rfl
  | cons c cs ih =>
    intro acc
    have hc : c = [] := h c (List.mem_cons_self c cs)
    subst hc
    rw [List.foldl_cons]
    simp only [show feedChunk ([] : List Char) [] = ([], []) from rfl, List.append_nil]
    exact ih (fun x hx => h x (List.mem_cons_of_mem _ hx)) acc

/-- Feeding any chunking of the remainder of an encoded frame through
handleData ends with an empty buffer and exactly the payload emitted. -/
theorem feedSteps (pl : List Char) (hascii : ∀ c ∈ pl, c.toNat < 128) :
    ∀ (chunks : List (List Char)) (q : List Char) (acc : List (List Char)),
      (∃ t, t ≠ [] ∧ q ++ t = "Content-Length: ".data ++ natToChars (byteLen pl) ++
        '\r' :: '\n' :: '\r' :: '\n' :: pl) →
      q ++ joinChunks chunks = "Content-Length: ".data ++ natToChars (byteLen pl) ++
        '\r' :: '\n' :: '\r' :: '\n' :: pl →
      List.foldl
          (fun st c =>
            let r := feedChunk st.1 c
            (r.1, st.2 ++ r.2))
          (q, acc) chunks = ([], acc ++ [pl]) := by
  intro chunks
  induction chunks with
  | nil =>
    intro q acc hex hj
    exfalso
    obtain ⟨t, ht, hqt⟩ := hex
    rw [show joinChunks [] = [] from rfl, List.append_nil] at hj
    rw [← hj] at hqt
    have h5 := congrArg List.length hqt
    simp at h5
    exact ht h5
  | cons c cs ih =>
    intro q acc hex hj
    rw [List.foldl_cons]
    rw [show joinChunks (c :: cs) = c ++ joinChunks cs from rfl] at hj
    by_cases hend : q ++ c = "Content-Length: ".data ++ natToChars (byteLen pl) ++
        '\r' :: '\n' :: '\r' :: '\n' :: pl
    · have h16 : ("Content-Length: ".data).length = 16 := by decide
      have hg : ∃ g, q.length + c.length = g + 1 := by
        have h6 := congrArg List.length hend
        simp only [List.length_append, List.length_cons, h16] at h6
        refine ⟨q.length + c.length - 1, ?_⟩
        omega
      obtain ⟨g, hgeq⟩ := hg
      have hfeed : feedChunk q c = ([], [pl]) := by
        unfold feedChunk
        rw [hgeq, hend]
        exact processBuffer_full pl hascii g
      simp only [hfeed]
      have hcs : joinChunks cs = [] := by
        rw [← List.append_assoc, hend] at hj
        have h5 := congrArg List.length hj
        simp only [List.length_append] at h5
        have h6 : (joinChunks cs).length = 0 := by omega
        exact List.length_eq_zero.1 h6
      exact foldFeed_empties cs (joinChunks_eq_nil cs hcs) (acc ++ [pl])
    · have hjcs : joinChunks cs ≠ [] := by
        intro hnil
        rw [hnil, List.append_nil] at hj
        exact hend hj
      have hfeed : feedChunk q c = (q ++ c, []) := by
        unfold feedChunk
        exact processBuffer_incomplete pl (q ++ c) (joinChunks cs) hascii _ hjcs
          (by rw [List.append_assoc]; exact hj)
      simp only [hfeed, List.append_nil]
      exact ih (q ++ c) acc
        ⟨joinChunks cs, hjcs, by rw [List.append_assoc]; exact hj⟩
        (by rw [List.append_assoc]; exact hj)

/-- C4 (counterexample): for a request whose serialization contains a
non-ASCII character, Content-Length counts UTF-8 bytes but the decoder
compares it against the character count of the buffered string, so the
frame is never considered complete: feeding the full encoded frame emits
no payload and leaves the whole frame sitting in the buffer. -/
theorem c4_nonascii_counterexample :
    (feedChunks [encodeRequestFrame reqAccent]).2 = [] ∧
      (feedChunks [encodeRequestFrame reqAccent]).1 = encodeRequestFrame reqAccent ∧
      byteLen (stringifyRequest reqAccent) = (stringifyRequest reqAccent).length + 1 := by
  decide

/-- C4 (amended): for every request whose JSON serialization is pure
ASCII, encoding it as the Content-Length header plus blank line plus
payload and feeding the bytes to the frame decoder in any chunking
yields exactly one decoded payload, which parses back to the request's
JSON message; the buffer is left empty. -/
theorem c4_ascii_roundtrip (r : DAPRequestM) (chunks : List (List Char))
    (hascii : ∀ c ∈ stringifyRequest r, c.toNat < 128)
    (hj : joinChunks chunks = encodeRequestFrame r) :
    feedChunks chunks = ([], [stringifyRequest r]) ∧
      (feedChunks chunks).2.filterMap jsonParseFull = [requestToJson r] := by
  have hne : encodeRequestFrame r ≠ [] := by
    intro hh
    have h0 := congrArg List.length hh
    unfold encodeRequestFrame at h0
    simp only [List.length_append, List.length_cons, List.length_nil] at h0
    omega
  have hfeed : feedChunks chunks = ([], [stringifyRequest r]) := by
    unfold feedChunks
    have h := feedSteps (stringifyRequest r) hascii chunks [] []
      ⟨encodeRequestFrame r, hne, by rw [List.nil_append]; unfold encodeRequestFrame; rfl⟩
      (by rw [List.nil_append, hj]; unfold encodeRequestFrame; rfl)
    rw [List.nil_append] at h
    exact h
  have h2 : jsonParseFull (stringifyRequest r) = some (requestToJson r) :=
    jsonParseFull_stringifyJson (requestToJson r)
  refine ⟨hfeed, ?_⟩
  rw [hfeed]
  simp [List.filterMap_cons, h2]

/-- C4 witness: the initialize request round-trips through the codec
even when its frame arrives split into two chunks. -/
theorem c4_ascii_roundtrip_witness :
    feedChunks [(encodeRequestFrame reqInit).take 10,
        (encodeRequestFrame reqInit).drop 10] =
      ([], [stringifyRequest reqInit]) ∧
      (feedChunks [(encodeRequestFrame reqInit).take 10,
          (encodeRequestFrame reqInit).drop 10]).2.filterMap jsonParseFull =
        [requestToJson reqInit] :=
  c4_ascii_roundtrip reqInit
    [(encodeRequestFrame reqInit).take 10, (encodeRequestFrame reqInit).drop 10]
    (by decide) (by decide)

end GodotMCP
